import Mathlib

/-!
# FuSaTool — MRS Classification Engine: verification development

Shallow embedding of the MRS ("Meta Requirement Schema") classification
engine of the FuSaTool repository, together with proofs and refutations of
the testable properties stated in its specification.

The repository contains several near-duplicate implementations of the same
engine.  The ones cited by the properties under study are:

* `src/mrs_parser.py`              (class `MRSParser`: slot-state detection,
  type determination with `all`/`any` criteria, missingness rule engine),
* `src/mrs_parser_explainable.py`  (class `AdvancedRuleParser`: staged
  lexical / structural / relation-correction pipeline, and
  `determine_mrs_type` with rationale),
* `src/mrs_parser_v02.py`          (older `MRSParser` variant, whose
  missingness overrides differ),
* `src/mrs_parser_v04.py`          (`HIERARCHY_RELATIONS` and the
  `HierarchyValidator` stage).

All slot detection in the Python sources happens through `re.search` /
`re.finditer` over the normalized text.  The pipeline stages downstream of
the regex layer are pure functions of those match results, so the embedding
takes the match results as input (`MatchOracle` / `TextFacts` below): a
boolean per (slot, pattern) plus the candidate/span lists.  Universal
statements proved over all oracles hold in particular for every input text;
concrete counterexamples use oracles realized by concrete texts, which are
spelled out in the comments.

Machine strings are embedded as Lean `String`/`List Char`; the text
normalizer (`_normalize`) is embedded character-by-character in the final
section of the definitions.
-/

namespace FuSaTool

/-! ## 1. Data model

`SlotState` follows `src/mrs_parser.py` (which has the four members
`OK, WEAK, VAGUE, ABSENT`); the explainable and v04 variants declare only
`OK, WEAK, ABSENT` and never produce `VAGUE`, so the same enumeration
serves all variants.  `MissingLabel` follows `src/mrs_parser.py`. -/

inductive SlotName where
  | Why | Anchor | What | HowType | When | Constraints | Verification | AcceptanceCriteria
deriving DecidableEq, Repr

inductive SlotState where
  | OK | WEAK | VAGUE | ABSENT
deriving DecidableEq, Repr

inductive MissingLabel where
  | ACTIONABLE | PERMISSIBLE | DEFERRED | NONE
deriving DecidableEq, Repr

open SlotName SlotState MissingLabel

/-- The Python string key of a slot (the keys of the `PATTERNS` dict and of
the per-requirement `slots` dict). -/
def slotKey : SlotName → String
  | Why => "Why"
  | Anchor => "Anchor"
  | What => "What"
  | HowType => "HowType"
  | When => "When"
  | Constraints => "Constraints"
  | Verification => "Verification"
  | AcceptanceCriteria => "AcceptanceCriteria"

/-- Inverse of `slotKey`: which member of the closed slot set a raw string
names (`none` for any other string). -/
def slotOfKey (k : String) : Option SlotName :=
  if k = "Why" then some Why
  else if k = "Anchor" then some Anchor
  else if k = "What" then some What
  else if k = "HowType" then some HowType
  else if k = "When" then some When
  else if k = "Constraints" then some Constraints
  else if k = "Verification" then some Verification
  else if k = "AcceptanceCriteria" then some AcceptanceCriteria
  else none

/-- `SlotState.name` of the Python `Enum` (used by the type-determination
code through `state.name not in allowed_states`). -/
def stateName : SlotState → String
  | OK => "OK"
  | WEAK => "WEAK"
  | VAGUE => "VAGUE"
  | ABSENT => "ABSENT"

/-- Point update of a state vector (a Python `slots[name] = value`
assignment on the per-requirement dict). -/
def upd (st : SlotName → SlotState) (n : SlotName) (v : SlotState) : SlotName → SlotState :=
  fun m => if m = n then v else st m

@[simp] theorem upd_same (st : SlotName → SlotState) (n : SlotName) (v : SlotState) :
    upd st n v n = v := by simp [upd]

theorem upd_ne (st : SlotName → SlotState) {n m : SlotName} (v : SlotState) (h : m ≠ n) :
    upd st n v m = st m := by simp [upd, h]

/-! ## 2. `src/mrs_parser_explainable.py` — `AdvancedRuleParser`

`AdvancedRuleParser.parse` (lines 112–145) works in three stages over the
normalized text:

* Stage 1 (lexical): for each of the 8 slots, `WEAK` if `re.search` of the
  slot's `PATTERNS` entry succeeds, else `ABSENT`;
* Stage 2 (structural): for `Constraints, When, Verification,
  AcceptanceCriteria`, a `WEAK` slot whose `Strong_<slot>` pattern matches
  is promoted to `OK` (all four `Strong_` keys exist in this file's
  `PATTERNS`); afterwards `Anchor` and `What` are promoted `WEAK → OK`
  unconditionally;
* Stage 3 (relation correction): if `Anchor` is `ABSENT`, an `OK` `When`
  or `Constraints` is demoted to `WEAK`; if `What` is `ABSENT`, an `OK`
  `HowType` is demoted to `WEAK`.

The oracle records, for the normalized text, whether the slot's lexical
pattern matches (`lex`) and whether the slot's `Strong_` pattern matches
(`strong`). -/

structure MatchOracle where
  lex : SlotName → Bool
  strong : SlotName → Bool

/-- Stage 1 of `AdvancedRuleParser.parse` (lines 117–123). -/
def stage1 (o : MatchOracle) : SlotName → SlotState :=
  fun s => if o.lex s then WEAK else ABSENT

/-- One iteration of the Stage-2 loop (lines 126–130): a `WEAK` slot with a
`Strong_` match is promoted to `OK`. -/
def strong_step (o : MatchOracle) (acc : SlotName → SlotState) (s : SlotName) :
    SlotName → SlotState :=
  if acc s = WEAK ∧ o.strong s then upd acc s OK else acc

/-- Stage 2 of `AdvancedRuleParser.parse` (lines 125–133): strong-pattern
promotion for the four structural slots, then the unconditional
`Anchor`/`What` promotions. -/
def stage2 (o : MatchOracle) (st : SlotName → SlotState) : SlotName → SlotState :=
  let stS := [Constraints, When, Verification, AcceptanceCriteria].foldl (strong_step o) st
  let stA := if stS Anchor = WEAK then upd stS Anchor OK else stS
  if stA What = WEAK then upd stA What OK else stA

/-- States at the end of structural promotion (input to Stage 3). -/
def adv_promoted (o : MatchOracle) : SlotName → SlotState :=
  stage2 o (stage1 o)

/-- First half of Stage 3 (lines 136–138): Anchor absent demotes an `OK`
`When`/`Constraints` to `WEAK`. -/
def stage3a (st : SlotName → SlotState) : SlotName → SlotState :=
  if st Anchor = ABSENT then
    let s1 := if st When = OK then upd st When WEAK else st
    if s1 Constraints = OK then upd s1 Constraints WEAK else s1
  else st

/-- Second half of Stage 3 (lines 140–141): What absent demotes an `OK`
`HowType` to `WEAK`. -/
def stage3b (st : SlotName → SlotState) : SlotName → SlotState :=
  if st What = ABSENT then
    (if st HowType = OK then upd st HowType WEAK else st)
  else st

/-- Final slot states of `AdvancedRuleParser.parse`. -/
def adv_slots (o : MatchOracle) : SlotName → SlotState :=
  stage3b (stage3a (adv_promoted o))

/-! ### `determine_mrs_type` (mrs_parser_explainable.py, lines 69–96)

The function iterates over `type_order` and looks each type name up in the
`types` dict of the configuration; the two are modelled together as one
ordered association list `(type name, list of 'all' conditions)`, each
condition being `(slot name string, state_in list)`.  This is faithful for
every configuration in which each name of `type_order` is present in
`types` (true of `DEFAULT_MRS_CONFIG`; a missing name would raise a
`KeyError`, a behaviour studied for `mrs_parser.py` in section 3).  Slot
states are read with `slots.get(slot_name, SlotState.ABSENT)`, so a
condition naming an unknown slot sees `ABSENT`. -/

abbrev TypeEntry := String × List (String × List String)

/-- `slots.get(slot_name, SlotState.ABSENT)` on the 8-key slots dict. -/
def state_of (st : SlotName → SlotState) (k : String) : SlotState :=
  (slotOfKey k).elim ABSENT st

/-- One type's `match.all` conjunction: every condition's current state name
is in its `state_in` list. -/
def satisfies_all (st : SlotName → SlotState) (conds : List (String × List String)) : Bool :=
  conds.all (fun c => stateName (state_of st c.1) ∈ c.2)

/-- The rationale recorded for a matching type: the `slot=STATE` pairs of
its conditions, in table order, joined with a comma. -/
def rationale_of (st : SlotName → SlotState) (conds : List (String × List String)) : String :=
  String.intercalate ", " (conds.map (fun c => c.1 ++ "=" ++ stateName (state_of st c.1)))

/-- `determine_mrs_type` of `mrs_parser_explainable.py`: first entry of the
ordered table whose full conjunction holds, with its rationale; otherwise
`("Unknown", "No matching criteria found")`. -/
def determine_mrs_type (config : List TypeEntry) (st : SlotName → SlotState) : String × String :=
  match config with
  | [] => ("Unknown", "No matching criteria found")
  | (t, conds) :: rest =>
    if satisfies_all st conds then (t, rationale_of st conds)
    else determine_mrs_type rest st

/-- `DEFAULT_MRS_CONFIG` of `mrs_parser_explainable.py` (lines 14–25):
`type_order = [T6, T5, T4, T3, T2, T1]` with the corresponding `match.all`
conditions, merged into one ordered table. -/
def default_config : List TypeEntry :=
  [ ("T6_VerificationCentric", [("Verification", ["OK"]), ("AcceptanceCriteria", ["OK"])])
  , ("T5_ConstraintCentric", [("Constraints", ["OK"])])
  , ("T4_WhenCentric", [("When", ["OK"])])
  , ("T3_HowTypeCentric", [("HowType", ["OK"])])
  , ("T2_WhatCentric", [("What", ["OK"]), ("Anchor", ["OK"])])
  , ("T1_WhyCentric", [("Why", ["OK"])]) ]

/-- Result record of `AdvancedRuleParser.parse` (`ParseResult` of
mrs_parser_explainable.py, with the slot-state dict as a function). -/
structure AdvParseResult where
  id : String
  mrs_type : String
  type_rationale : String
  slots : SlotName → SlotState

/-- `AdvancedRuleParser.parse`: stages 1–3 then type determination. -/
def adv_parse (config : List TypeEntry) (req_id : String) (o : MatchOracle) : AdvParseResult :=
  let sl := adv_slots o
  let tr := determine_mrs_type config sl
  ⟨req_id, tr.1, tr.2, sl⟩

/-! ## 3. `src/mrs_parser.py` — class `MRSParser`

### Slot detection (`_determine_slot_state`, lines 96–121)

For a slot, `re.finditer` of the slot's lexical pattern over the normalized
text yields the candidate strings and spans; with no match the state is
`ABSENT`.  Otherwise the state starts `WEAK` and is promoted to `OK` if
either

* `"Strong_" + slot_name` is a key of `PATTERNS` and that pattern matches
  (`PATTERNS` of this file has the keys `Strong_Constraints`, `Strong_When`,
  `Strong_Verification` and `Strong_AC` — note the last one: the lookup for
  `AcceptanceCriteria` is the string `"Strong_AcceptanceCriteria"`, which is
  NOT a key, so the strong gate never applies to `AcceptanceCriteria`), or
* the slot has no `Strong_` key, in which case the `else` branch sets `OK`
  unconditionally.

`TextFacts` records the `finditer` results (candidate texts and spans) and
the `Strong_` search results for the normalized text. -/

structure TextFacts where
  candidates : SlotName → List String
  spans : SlotName → List (Nat × Nat)
  strong : SlotName → Bool

/-- Whether `"Strong_" + slot_key` is a key of `PATTERNS` in
`mrs_parser.py`.  The dict defines `Strong_Constraints`, `Strong_When`,
`Strong_Verification` and `Strong_AC`; the lookup string for
`AcceptanceCriteria` is `"Strong_AcceptanceCriteria"`, so the result is
`false` for it. -/
def has_strong_key : SlotName → Bool :=
  fun s => s ∈ [Constraints, When, Verification]

/-- `SlotData` of mrs_parser.py. -/
structure SlotData where
  state : SlotState := ABSENT
  candidates : List String := []
  spans : List (Nat × Nat) := []
deriving DecidableEq, Repr

/-- `MRSParser._determine_slot_state`. -/
def determine_slot_state (tf : TextFacts) (s : SlotName) : SlotData :=
  if tf.candidates s = [] then { state := ABSENT }
  else
    { state :=
        if has_strong_key s then (if tf.strong s then OK else WEAK) else OK
      candidates := tf.candidates s
      spans := tf.spans s }

/-! ### Configuration and `__init__` (mrs_parser.py, lines 77–83)

`MRSParser.__init__` loads the YAML rules and merely indexes the top-level
keys: `self.type_defs = rules['mrs_schema']['mrs_only_types']` and
`self.expectations = rules['mrs_schema']['type_slot_expectations']['matrix']`.
It never inspects slot names, state names, or the shape of the decision
table, so construction succeeds for any configuration whose top-level keys
exist; `Rules` models the YAML after those top-level keys have been read.

The decision table keeps slot names as raw strings (YAML data), because
`_determine_mrs_type` indexes `slots[slot_name]` with them, which raises a
`KeyError` for a name outside the 8-key slots dict; errors are modelled
with `Except String`.  The expectation matrix is modelled with `SlotName`
keys (the well-formed-configuration case; an unknown matrix key would fail
exactly like an unknown decision-table key, at classification time). -/

structure Cond where
  slot : String
  state_in : List String
deriving DecidableEq, Repr

structure Criteria where
  all : Option (List Cond) := none
  any : Option (List Cond) := none
deriving DecidableEq, Repr

structure TypeDefs where
  type_order : List String
  types : List (String × Criteria)
deriving DecidableEq, Repr

abbrev ExpMatrix := List (String × List (SlotName × String))

/-- The YAML rules after `__init__` has indexed the fixed top-level keys. -/
structure Rules where
  mrs_only_types : TypeDefs
  matrix : ExpMatrix

/-- The fields `__init__` stores on the parser object. -/
structure ParserState where
  type_defs : TypeDefs
  expectations : ExpMatrix

/-- `MRSParser.__init__`: stores the two sub-dicts verbatim.  No slot-name
validation of any kind happens here. -/
def mrs_parser_init (rules : Rules) : ParserState :=
  { type_defs := rules.mrs_only_types, expectations := rules.matrix }

/-- Dict lookup on a string-keyed association list. -/
def lookupD {α : Type} (l : List (String × α)) (k : String) : Option α :=
  (l.find? (fun p => p.1 == k)).map (fun p => p.2)

/-! ### `_determine_mrs_type` (mrs_parser.py, lines 123–157)

The loop sets `match = True`, walks the `all` conditions (breaking on the
first failing one — conditions after the break are not evaluated, hence not
able to raise), then, if still matching and an `any` list exists, walks it
until the first satisfied condition.  `slots[slot_name]` raises `KeyError`
for an unknown slot name; so does `types[t_name]` for a type name missing
from the `types` dict. -/

def check_all_conds (slots : String → Option SlotData) : List Cond → Except String Bool
  | [] => .ok true
  | c :: rest =>
    match slots c.slot with
    | none => .error ("KeyError: " ++ c.slot)
    | some sd =>
      if stateName sd.state ∈ c.state_in then check_all_conds slots rest else .ok false

def check_any_conds (slots : String → Option SlotData) : List Cond → Except String Bool
  | [] => .ok false
  | c :: rest =>
    match slots c.slot with
    | none => .error ("KeyError: " ++ c.slot)
    | some sd =>
      if stateName sd.state ∈ c.state_in then .ok true else check_any_conds slots rest

/-- The `'all' in criteria` guard: with no `all` key, `match` stays
`True`. -/
def eval_all_conds (slots : String → Option SlotData) (crit : Criteria) :
    Except String Bool :=
  match crit.all with
  | none => .ok true
  | some cs => check_all_conds slots cs

/-- The `match and 'any' in criteria` block followed by `if match: return
t_name`; `cont` is the continuation to the next type of `type_order`. -/
def eval_any_gate (slots : String → Option SlotData) (t : String)
    (cont : Except String String) (crit : Criteria) : Except String String :=
  match crit.any with
  | none => .ok t
  | some cs =>
    match check_any_conds slots cs with
    | .error e => .error e
    | .ok ab => if ab then .ok t else cont

def determine_loop (types : List (String × Criteria)) (slots : String → Option SlotData) :
    List String → Except String String
  | [] => .ok "Unknown"
  | t :: rest =>
    match lookupD types t with
    | none => .error ("KeyError: " ++ t)
    | some crit =>
      match eval_all_conds slots crit with
      | .error e => .error e
      | .ok b =>
        if b then eval_any_gate slots t (determine_loop types slots rest) crit
        else determine_loop types slots rest

/-- `MRSParser._determine_mrs_type`. -/
def determine_mrs_type_py (td : TypeDefs) (slots : String → Option SlotData) :
    Except String String :=
  determine_loop td.types slots td.type_order

/-! ### `_apply_missingness_rules` (mrs_parser.py, lines 159–214)

Stage S builds one item per matrix entry whose slot is `ABSENT`, with the
base label from the expectation (`M`/`R`/`O`; any other string leaves the
initial `NONE` label and empty rationale).  Stage A applies the
`A-ANC0` override (Anchor not `OK` defers the four downstream slots) and
then the `A-WT1` override (a `What` item is always `ACTIONABLE`).  Stage P
applies the `P-VV1` relaxation (Verification `ABSENT` with Anchor, What,
When, Constraints all `OK` makes the Verification item `PERMISSIBLE`).
Python encloses the slot name of the rationale strings in single quotes;
the quote characters are elided here. -/

structure MissingItem where
  slot : SlotName
  label : MissingLabel
  rationale : String
deriving DecidableEq, Repr

/-- The Stage-S item for one matrix entry (mrs_parser.py, lines 170–180). -/
def base_item (s : SlotName) (e : String) : MissingItem :=
  if e = "M" then ⟨s, ACTIONABLE, "Rule S-M1: Mandatory slot " ++ slotKey s ++ " is missing."⟩
  else if e = "R" then ⟨s, DEFERRED, "Rule S-R1: Recommended slot " ++ slotKey s ++ " is missing."⟩
  else if e = "O" then ⟨s, PERMISSIBLE, "Rule S-O1: Optional slot " ++ slotKey s ++ " is missing."⟩
  else ⟨s, NONE, ""⟩

/-- Stage S: one item per expectation-matrix entry whose slot ended
`ABSENT`, in matrix order. -/
def missing_stage_s (exp_map : List (SlotName × String)) (st : SlotName → SlotState) :
    List MissingItem :=
  exp_map.filterMap (fun p => if st p.1 = ABSENT then some (base_item p.1 p.2) else none)

/-- Rule A-ANC0 (lines 184–192). -/
def anchor_override (st : SlotName → SlotState) (items : List MissingItem) : List MissingItem :=
  if st Anchor ∈ [WEAK, VAGUE, ABSENT] then
    items.map (fun i =>
      if i.slot ∈ [When, Constraints, Verification, AcceptanceCriteria] then
        { i with label := DEFERRED, rationale := i.rationale ++ " [Override A-ANC0: Anchor weak]" }
      else i)
  else items

/-- Rule A-WT1 (lines 194–198). -/
def what_override (items : List MissingItem) : List MissingItem :=
  items.map (fun i =>
    if i.slot = What then
      { i with label := ACTIONABLE, rationale := "Rule A-WT1: Core requirement missing." }
    else i)

/-- The report after stages S and A (before the P-VV1 relaxation). -/
def missing_stage_sa (exp_map : List (SlotName × String)) (st : SlotName → SlotState) :
    List MissingItem :=
  what_override (anchor_override st (missing_stage_s exp_map st))

/-- Rule P-VV1 (lines 200–212): fires only when Verification is `ABSENT`
and Anchor, What, When and Constraints are all `OK`. -/
def verification_relax (st : SlotName → SlotState) (items : List MissingItem) :
    List MissingItem :=
  if st Verification = ABSENT ∧
     (st Anchor = OK ∧ st What = OK ∧ st When = OK ∧ st Constraints = OK) then
    items.map (fun i =>
      if i.slot = Verification then
        { i with label := PERMISSIBLE
               , rationale := "Rule P-VV1: Test closure exists (When+Constraints), explicit method deferred." }
      else i)
  else items

/-- `MRSParser._apply_missingness_rules`: no report at all when the
determined type has no matrix row (the early `return` leaves
`missing_items` as the empty default). -/
def apply_missingness_rules (expectations : ExpMatrix) (mrs_type : String)
    (st : SlotName → SlotState) : List MissingItem :=
  match lookupD expectations mrs_type with
  | none => []
  | some exp_map => verification_relax st (missing_stage_sa exp_map st)

/-! ## 4. `src/mrs_parser_v02.py` — missingness variant (lines 220–251)

Stage S is as in mrs_parser.py with different rationale strings.  The
anchor override fires when Anchor is not `OK` and targets only
`When, Constraints, Verification`.  There is no What override.  The
relaxation requires only `When = OK` and `Constraints = OK` (it does not
consult Anchor or What). -/

def base_item_v02 (ty : String) (s : SlotName) (e : String) : MissingItem :=
  if e = "M" then ⟨s, ACTIONABLE, "[Required] " ++ slotKey s ++ " is mandatory for " ++ ty ++ "."⟩
  else if e = "R" then ⟨s, DEFERRED, "[Recommended] " ++ slotKey s ++ " is missing."⟩
  else if e = "O" then ⟨s, PERMISSIBLE, "[Optional] " ++ slotKey s ++ " is missing."⟩
  else ⟨s, NONE, ""⟩

def missing_stage_s_v02 (ty : String) (exp_map : List (SlotName × String))
    (st : SlotName → SlotState) : List MissingItem :=
  exp_map.filterMap (fun p => if st p.1 = ABSENT then some (base_item_v02 ty p.1 p.2) else none)

def anchor_override_v02 (st : SlotName → SlotState) (items : List MissingItem) :
    List MissingItem :=
  if st Anchor ≠ OK then
    items.map (fun i =>
      if i.slot ∈ [When, Constraints, Verification] then
        { i with label := DEFERRED, rationale := i.rationale ++ " (Deferred: Weak Anchor)" }
      else i)
  else items

def verification_relax_v02 (st : SlotName → SlotState) (items : List MissingItem) :
    List MissingItem :=
  if st Verification = ABSENT ∧ (st When = OK ∧ st Constraints = OK) then
    items.map (fun i =>
      if i.slot = Verification then
        { i with label := PERMISSIBLE
               , rationale := "Permissible: Test logic implied via When+Constraints." }
      else i)
  else items

/-- `MRSParser._apply_missingness_rules` of mrs_parser_v02.py. -/
def apply_missingness_rules_v02 (expectations : ExpMatrix) (mrs_type : String)
    (st : SlotName → SlotState) : List MissingItem :=
  match lookupD expectations mrs_type with
  | none => []
  | some exp_map =>
    verification_relax_v02 st (anchor_override_v02 st (missing_stage_s_v02 mrs_type exp_map st))

/-! ## 5. `src/mrs_parser_v04.py` — `HIERARCHY_RELATIONS` and
`HierarchyValidator` (lines 30–43 and 185–216)

The declared relations are `Anchor → [What]`,
`What → [When, Constraints, HowType]`, `Verification → [AcceptanceCriteria]`,
applied in that order.  For each relation whose superior is `ABSENT`, every
subordinate currently in state `OK` is pruned: its state becomes `ABSENT`
and its `selected` span is cleared.  Later relations observe the mutations
of earlier ones (so an `Anchor`-triggered pruning of `What` cascades). -/

structure SlotData04 where
  state : SlotState
  selected : Option String
deriving DecidableEq, Repr

def prune04 (sd : SlotData04) : SlotData04 :=
  if sd.state = OK then ⟨ABSENT, none⟩ else sd

/-- One entry of the `HIERARCHY_RELATIONS` loop of
`HierarchyValidator.validate`. -/
def apply_relation (sup : SlotName) (subs : List SlotName)
    (sl : SlotName → SlotData04) : SlotName → SlotData04 :=
  if (sl sup).state = ABSENT then
    fun n => if n ∈ subs then prune04 (sl n) else sl n
  else sl

/-- `HierarchyValidator.validate`: the three relations in declaration
order. -/
def hierarchy_validate (sl : SlotName → SlotData04) : SlotName → SlotData04 :=
  apply_relation Verification [AcceptanceCriteria]
    (apply_relation What [When, Constraints, HowType]
      (apply_relation Anchor [What] sl))

/-! ## 6. `_normalize` (mrs_parser.py lines 85–94, mrs_parser_explainable.py
lines 105–110)

Both normalizers are built from the same four primitives, composed in
different orders:

* `str.lower()` — embedded as `Char.toLower` character-wise (the ASCII
  case fold; `Char.toLower` of Lean core works on the basic latin letters,
  which matches every character the pattern tables can react to);
* `re.sub(r"\b(msec|milliseconds)\b", "ms", ·)` and
  `re.sub(r"\b(sec|seconds)\b", "s", ·)` — each alternative consists of
  word characters only, so a `\b…\b` match is exactly a maximal run of
  word characters (`\w`) that equals one of the alternatives: a match must
  begin and end at word boundaries, the matched text contains no boundary,
  and `re.sub` replaces the non-overlapping matches left to right.  The
  embedding (`mapRuns`/`subRe`) therefore splits the text into maximal
  word runs and rewrites every run equal to an alternative;
* `str.replace("\n", " ")` — character-wise `nl2sp`;
* `str.strip()` — drop whitespace from both ends (`trim`).

`mrs_parser.py` computes `lower`, the two substitutions, `replace`,
`strip`; `mrs_parser_explainable.py` computes `lower`, `replace`, `strip`,
then the two substitutions.  Python's `\w` is embedded as alphanumeric or
underscore. -/

/-- Python `\w` (word character): alphanumeric or underscore. -/
def wordChar (c : Char) : Bool := c.isAlphanum || c = '_'

/-- Python `str.strip()` whitespace set. -/
def wsChar (c : Char) : Bool :=
  c = ' ' || c = '\t' || c = '\n' || c = '\r' || c = '\x0b' || c = '\x0c'

/-- `str.replace("\n", " ")`, character-wise. -/
def nl2sp (c : Char) : Char := if c = '\n' then ' ' else c

/-- Longest prefix of characters whose `wordChar` value is `b`, and the
rest. -/
def takeRun (b : Bool) : List Char → List Char × List Char
  | [] => ([], [])
  | c :: rest =>
    if wordChar c = b then ((c :: (takeRun b rest).1), (takeRun b rest).2)
    else ([], c :: rest)

theorem takeRun_snd_length (b : Bool) (l : List Char) :
    (takeRun b l).2.length ≤ l.length := by
  induction l with
  | nil => simp [takeRun]
  | cons c rest ih =>
    simp only [takeRun]
    split
    · simpa using Nat.le_succ_of_le ih
    · simp

/-- Rewrite every maximal word run of the text through `g`, leaving
non-word characters in place. -/
def mapRuns (g : List Char → List Char) : List Char → List Char
  | [] => []
  | c :: rest =>
    if wordChar c then
      g (c :: (takeRun true rest).1) ++ mapRuns g (takeRun true rest).2
    else c :: mapRuns g rest
termination_by l => l.length
decreasing_by
  · have h := takeRun_snd_length true rest
    simp only [List.length_cons]
    omega
  · simp

/-- `re.sub(r"\b(alt₁|…|altₖ)\b", repl, ·)` for all-word-character
alternatives: rewrite each maximal word run equal to an alternative to
`repl`. -/
def subRe (alts : List (List Char)) (repl : List Char) : List Char → List Char :=
  mapRuns (fun r => if r ∈ alts then repl else r)

/-- Remove trailing characters satisfying `p`. -/
def dwe (p : Char → Bool) : List Char → List Char
  | [] => []
  | c :: l =>
    match dwe p l with
    | [] => if p c then [] else [c]
    | r => c :: r

/-- Python `str.strip()`: leading and trailing whitespace removed. -/
def trim (l : List Char) : List Char := dwe wsChar (l.dropWhile wsChar)

/-- `re.sub(r"\b(msec|milliseconds)\b", "ms", ·)`. -/
def sub_ms : List Char → List Char :=
  subRe ["msec".data, "milliseconds".data] "ms".data

/-- `re.sub(r"\b(sec|seconds)\b", "s", ·)`. -/
def sub_s : List Char → List Char :=
  subRe ["sec".data, "seconds".data] "s".data

/-- `MRSParser._normalize` of mrs_parser.py on the character list:
lower-case, unit substitutions, newline replacement, strip. -/
def normalizeList (l : List Char) : List Char :=
  trim ((sub_s (sub_ms (l.map Char.toLower))).map nl2sp)

/-- `MRSParser._normalize` of mrs_parser.py (`if not text: return ""` is
the empty-string guard). -/
def normalize (text : String) : String :=
  if text = "" then "" else ⟨normalizeList text.data⟩

/-- `AdvancedRuleParser._normalize` of mrs_parser_explainable.py on the
character list: lower-case, newline replacement, strip, unit
substitutions. -/
def normalizeListExp (l : List Char) : List Char :=
  sub_s (sub_ms (trim ((l.map Char.toLower).map nl2sp)))

/-- `AdvancedRuleParser._normalize` of mrs_parser_explainable.py. -/
def normalize_exp (text : String) : String :=
  if text = "" then "" else ⟨normalizeListExp text.data⟩

/-! ### Structural lemmas about word runs -/

theorem takeRun_append (b : Bool) (l : List Char) :
    (takeRun b l).1 ++ (takeRun b l).2 = l := by
  induction l with
  | nil => simp [takeRun]
  | cons c rest ih =>
    simp only [takeRun]
    split
    · simpa using ih
    · simp

theorem takeRun_fst_all (b : Bool) (l : List Char) :
    ∀ c ∈ (takeRun b l).1, wordChar c = b := by
  induction l with
  | nil => simp [takeRun]
  | cons c rest ih =>
    simp only [takeRun]
    split
    · rename_i h
      intro x hx
      rcases List.mem_cons.mp hx with rfl | hx
      · exact h
      · exact ih x hx
    · simp

theorem takeRun_snd_head (b : Bool) (l : List Char) :
    ∀ c, (takeRun b l).2.head? = some c → ¬ wordChar c = b := by
  induction l with
  | nil => simp [takeRun]
  | cons c rest ih =>
    simp only [takeRun]
    split
    · exact ih
    · rename_i h
      intro x hx
      simp only [List.head?_cons, Option.some.injEq] at hx
      subst hx
      exact h

theorem takeRun_eq_of_run (b : Bool) (r t : List Char)
    (hr : ∀ c ∈ r, wordChar c = b)
    (ht : ∀ c, t.head? = some c → ¬ wordChar c = b) :
    takeRun b (r ++ t) = (r, t) := by
  induction r with
  | nil =>
    cases t with
    | nil => simp [takeRun]
    | cons d t' =>
      have hd := ht d rfl
      simp [takeRun, hd]
  | cons x r' ih =>
    have hx : wordChar x = b := hr x (List.mem_cons_self x r')
    have := ih (fun c hc => hr c (List.mem_cons_of_mem x hc))
    simp [takeRun, hx, this]

/-- Induction along the maximal-run structure of a character list. -/
theorem runs_induction (motive : List Char → Prop) (h0 : motive [])
    (h1 : ∀ c l, wordChar c = false → motive l → motive (c :: l))
    (h2 : ∀ c l, wordChar c = true → motive (takeRun true l).2 → motive (c :: l)) :
    ∀ l, motive l := by
  have key : ∀ n (l : List Char), l.length ≤ n → motive l := by
    intro n
    induction n with
    | zero =>
      intro l hl
      have : l = [] := List.eq_nil_of_length_eq_zero (Nat.le_zero.mp hl)
      simpa [this] using h0
    | succ n ih =>
      intro l hl
      match l with
      | [] => exact h0
      | c :: rest =>
        by_cases hw : wordChar c = true
        · refine h2 c rest hw (ih _ ?_)
          have := takeRun_snd_length true rest
          simp only [List.length_cons, Nat.succ_le_succ_iff] at hl
          omega
        · refine h1 c rest (by simpa using hw) (ih _ ?_)
          simp only [List.length_cons, Nat.succ_le_succ_iff] at hl
          exact hl
  exact fun l => key l.length l (Nat.le_refl _)

theorem mapRuns_nil (g : List Char → List Char) : mapRuns g [] = [] := by
  simp [mapRuns]

theorem mapRuns_cons_word (g : List Char → List Char) (c : Char) (l : List Char)
    (h : wordChar c = true) :
    mapRuns g (c :: l) = g (c :: (takeRun true l).1) ++ mapRuns g (takeRun true l).2 := by
  rw [mapRuns]
  simp [h]

theorem mapRuns_cons_nonword (g : List Char → List Char) (c : Char) (l : List Char)
    (h : wordChar c = false) :
    mapRuns g (c :: l) = c :: mapRuns g l := by
  rw [mapRuns]
  simp [h]

theorem mapRuns_run (g : List Char → List Char) (c : Char) (r t : List Char)
    (hc : wordChar c = true) (hr : ∀ x ∈ r, wordChar x = true)
    (ht : ∀ x, t.head? = some x → wordChar x = false) :
    mapRuns g ((c :: r) ++ t) = g (c :: r) ++ mapRuns g t := by
  rw [List.cons_append, mapRuns_cons_word g c (r ++ t) hc,
    takeRun_eq_of_run true r t hr (fun x hx => by simp [ht x hx])]

theorem mapRuns_head (g : List Char → List Char) (l : List Char)
    (hl : ∀ x, l.head? = some x → wordChar x = false) :
    ∀ x, (mapRuns g l).head? = some x → wordChar x = false := by
  cases l with
  | nil => simp [mapRuns_nil]
  | cons c rest =>
    have hc := hl c rfl
    rw [mapRuns_cons_nonword g c rest hc]
    intro x hx
    simp only [List.head?_cons, Option.some.injEq] at hx
    subst hx
    exact hc

/-- What `mapRuns` needs of a run-rewriting function: nonempty all-word
runs go to nonempty all-word runs. -/
def GoodG (g : List Char → List Char) : Prop :=
  ∀ r, r ≠ [] → (∀ c ∈ r, wordChar c = true) → g r ≠ [] ∧ ∀ c ∈ g r, wordChar c = true

theorem list_map_id_on {f : Char → Char} {m : List Char}
    (h : ∀ x ∈ m, f x = x) : m.map f = m := by
  induction m with
  | nil => rfl
  | cons a m ih =>
    simp only [List.map_cons, h a (List.mem_cons_self a m),
      ih (fun x hx => h x (List.mem_cons_of_mem a hx))]

/-- Consecutive run rewritings fuse. -/
theorem mapRuns_comp (g h : List Char → List Char) (hg : GoodG g) :
    ∀ l, mapRuns h (mapRuns g l) = mapRuns (fun r => h (g r)) l := by
  apply runs_induction
  · simp [mapRuns_nil]
  · intro c l hc ih
    rw [mapRuns_cons_nonword g c l hc, mapRuns_cons_nonword h c _ hc, ih,
      mapRuns_cons_nonword _ c l hc]
  · intro c l hc ih
    rw [mapRuns_cons_word g c l hc, mapRuns_cons_word _ c l hc]
    have hrall := takeRun_fst_all true l
    have hcr : (c :: (takeRun true l).1) ≠ [] := by simp
    obtain ⟨hne, hall⟩ := hg _ hcr (by
      intro x hx
      rcases List.mem_cons.mp hx with rfl | hx
      · exact hc
      · exact hrall x hx)
    obtain ⟨d, r', hd⟩ := List.exists_cons_of_ne_nil hne
    have hthead : ∀ x, (takeRun true l).2.head? = some x → wordChar x = false :=
      fun x hx => by simpa using takeRun_snd_head true l x hx
    rw [hd, mapRuns_run h d r' _ (hall d (by rw [hd]; exact List.mem_cons_self d r'))
      (fun x hx => hall x (by simp [hd, hx])) (mapRuns_head g _ hthead), ← hd, ih]

theorem mapRuns_congr (g g' : List Char → List Char)
    (hgg : ∀ r, r ≠ [] → (∀ c ∈ r, wordChar c = true) → g r = g' r) :
    ∀ l, mapRuns g l = mapRuns g' l := by
  apply runs_induction
  · simp [mapRuns_nil]
  · intro c l hc ih
    rw [mapRuns_cons_nonword g c l hc, mapRuns_cons_nonword g' c l hc, ih]
  · intro c l hc ih
    rw [mapRuns_cons_word g c l hc, mapRuns_cons_word g' c l hc, ih,
      hgg _ (by simp) (by
        intro x hx
        rcases List.mem_cons.mp hx with rfl | hx
        · exact hc
        · exact takeRun_fst_all true l x hx)]

theorem mapRuns_id (g : List Char → List Char)
    (hgid : ∀ r, r ≠ [] → (∀ c ∈ r, wordChar c = true) → g r = r) :
    ∀ l, mapRuns g l = l := by
  apply runs_induction
  · simp [mapRuns_nil]
  · intro c l hc ih
    rw [mapRuns_cons_nonword g c l hc, ih]
  · intro c l hc ih
    rw [mapRuns_cons_word g c l hc, ih,
      hgid _ (by simp) (by
        intro x hx
        rcases List.mem_cons.mp hx with rfl | hx
        · exact hc
        · exact takeRun_fst_all true l x hx)]
    rw [List.cons_append, takeRun_append]

/-- A character-wise map that fixes word characters and keeps non-word
characters non-word commutes with run rewriting. -/
theorem map_mapRuns (g : List Char → List Char) (hg : GoodG g) (f : Char → Char)
    (hfw : ∀ c, wordChar c = true → f c = c)
    (hfn : ∀ c, wordChar c = false → wordChar (f c) = false) :
    ∀ l, (mapRuns g l).map f = mapRuns g (l.map f) := by
  apply runs_induction
  · simp [mapRuns_nil]
  · intro c l hc ih
    rw [mapRuns_cons_nonword g c l hc, List.map_cons, List.map_cons, ih,
      mapRuns_cons_nonword g (f c) _ (hfn c hc)]
  · intro c l hc ih
    have hrall := takeRun_fst_all true l
    have hcall : ∀ x ∈ c :: (takeRun true l).1, wordChar x = true := by
      intro x hx
      rcases List.mem_cons.mp hx with rfl | hx
      · exact hc
      · exact hrall x hx
    obtain ⟨hne, hall⟩ := hg _ (by simp) hcall
    have hthead : ∀ x, (takeRun true l).2.head? = some x → wordChar x = false :=
      fun x hx => by simpa using takeRun_snd_head true l x hx
    rw [mapRuns_cons_word g c l hc, List.map_append,
      list_map_id_on (fun x hx => hfw x (hall x hx)), ih]
    conv_rhs =>
      rw [List.map_cons, hfw c hc, show l = (takeRun true l).1 ++ (takeRun true l).2 from
        (takeRun_append true l).symm, List.map_append,
        list_map_id_on (fun x hx => hfw x (hrall x hx)), ← List.cons_append]
    rw [mapRuns_run g c _ _ hc hrall (by
      intro x hx
      cases ht : (takeRun true l).2 with
      | nil => simp [ht] at hx
      | cons e t' =>
        have he := hthead e (by simp [ht])
        rw [ht, List.map_cons, List.head?_cons] at hx
        cases hx
        exact hfn e he)]

/-- Run rewriting by a `GoodG` function preserves and reflects `all p` for
any predicate that no word character satisfies. -/
theorem mapRuns_all (g : List Char → List Char) (hg : GoodG g) (p : Char → Bool)
    (hp : ∀ c, p c = true → wordChar c = false) :
    ∀ l, (mapRuns g l).all p = l.all p := by
  apply runs_induction
  · simp [mapRuns_nil]
  · intro c l hc ih
    rw [mapRuns_cons_nonword g c l hc, List.all_cons, List.all_cons, ih]
  · intro c l hc ih
    have hpc : p c = false := by
      cases hpc : p c
      · rfl
      · exact absurd (hp c hpc) (by simp [hc])
    have hrall := takeRun_fst_all true l
    obtain ⟨hne, hall⟩ := hg (c :: (takeRun true l).1) (by simp) (by
      intro x hx
      rcases List.mem_cons.mp hx with rfl | hx
      · exact hc
      · exact hrall x hx)
    obtain ⟨d, r', hd⟩ := List.exists_cons_of_ne_nil hne
    have hpd : p d = false := by
      cases hpd : p d
      · rfl
      · exact absurd (hp d hpd) (by simp [hall d (by simp [hd])])
    rw [mapRuns_cons_word g c l hc, List.all_append, hd, List.all_cons, hpd,
      List.all_cons, hpc]
    simp

/-- Every character of a run rewriting comes from the input or from an
output of `g` on a sub-run of the input. -/
theorem mem_mapRuns (g : List Char → List Char) (p : Char → Prop)
    (hgp : ∀ r, r ≠ [] → (∀ c ∈ r, wordChar c = true) → (∀ c ∈ r, p c) →
      ∀ c ∈ g r, p c) :
    ∀ l, (∀ c ∈ l, p c) → ∀ c ∈ mapRuns g l, p c := by
  apply runs_induction
  · simp [mapRuns_nil]
  · intro c l hc ih hall x hx
    rw [mapRuns_cons_nonword g c l hc] at hx
    rcases List.mem_cons.mp hx with rfl | hx
    · exact hall x (List.mem_cons_self x l)
    · exact ih (fun y hy => hall y (List.mem_cons_of_mem c hy)) x hx
  · intro c l hc ih hall x hx
    have hsplit := takeRun_append true l
    have hrall := takeRun_fst_all true l
    rw [mapRuns_cons_word g c l hc] at hx
    rcases List.mem_append.mp hx with hx | hx
    · refine hgp _ (by simp) (by
        intro y hy
        rcases List.mem_cons.mp hy with rfl | hy
        · exact hc
        · exact hrall y hy) ?_ x hx
      intro y hy
      rcases List.mem_cons.mp hy with rfl | hy
      · exact hall y (List.mem_cons_self y l)
      · refine hall y (List.mem_cons_of_mem c ?_)
        rw [← hsplit]
        exact List.mem_append.mpr (Or.inl hy)
    · refine ih (fun y hy => hall y (List.mem_cons_of_mem c ?_)) x hx
      rw [← hsplit]
      exact List.mem_append.mpr (Or.inr hy)

/-! ### Lemmas about `dwe` (drop-while-at-the-end) and `trim` -/

theorem dwe_nil (p : Char → Bool) : dwe p [] = [] := rfl

theorem dwe_cons (p : Char → Bool) (c : Char) (l : List Char) :
    dwe p (c :: l) = match dwe p l with
      | [] => if p c then [] else [c]
      | r => c :: r := rfl

theorem dwe_eq_nil_iff (p : Char → Bool) (l : List Char) :
    dwe p l = [] ↔ l.all p = true := by
  induction l with
  | nil => simp [dwe_nil]
  | cons c l ih =>
    rw [dwe_cons]
    cases h : dwe p l with
    | nil =>
      have hall : l.all p = true := ih.mp h
      constructor
      · intro hh
        by_cases hpc : p c = true
        · simp [hpc, hall]
        · simp [hpc] at hh
      · intro hh
        simp only [List.all_cons, Bool.and_eq_true] at hh
        simp [hh.1]
    | cons d r =>
      constructor
      · intro hh
        exact absurd hh (by simp)
      · intro hh
        simp only [List.all_cons, Bool.and_eq_true] at hh
        exact absurd (ih.mpr hh.2) (by simp [h])

theorem dwe_append (p : Char → Bool) (xs ys : List Char) :
    dwe p (xs ++ ys) = if dwe p ys = [] then dwe p xs else xs ++ dwe p ys := by
  induction xs with
  | nil =>
    simp only [List.nil_append]
    split
    · rename_i h
      simp [h, dwe_nil]
    · rfl
  | cons c xs ih =>
    rw [List.cons_append, dwe_cons, ih]
    by_cases hy : dwe p ys = []
    · simp only [hy, if_true, reduceIte]
      rw [dwe_cons]
    · simp only [hy, if_false, reduceIte]
      cases hx : (xs ++ dwe p ys) with
      | nil =>
        exact absurd hx (by simp [hy])
      | cons d r =>
        show c :: d :: r = c :: xs ++ dwe p ys
        rw [List.cons_append, hx]

theorem dwe_all_not (p : Char → Bool) (l : List Char)
    (h : ∀ c ∈ l, p c = false) : dwe p l = l := by
  induction l with
  | nil => rfl
  | cons c l ih =>
    rw [dwe_cons, ih (fun x hx => h x (List.mem_cons_of_mem c hx))]
    cases l with
    | nil => simp [h c (List.mem_cons_self c [])]
    | cons d r => simp

theorem dwe_singleton (p : Char → Bool) (c : Char) :
    dwe p [c] = if p c = true then [] else [c] := rfl

theorem dwe_cons_of_tail_nil (p : Char → Bool) (c : Char) (l : List Char)
    (hl : dwe p l = []) : dwe p (c :: l) = if p c = true then [] else [c] := by
  rw [dwe_cons, hl]

theorem dwe_cons_of_tail_cons (p : Char → Bool) (c d : Char) (l r : List Char)
    (hl : dwe p l = d :: r) : dwe p (c :: l) = c :: d :: r := by
  rw [dwe_cons, hl]

theorem dwe_head (p : Char → Bool) (l : List Char) (h : dwe p l ≠ []) :
    (dwe p l).head? = l.head? := by
  cases l with
  | nil => rfl
  | cons c l =>
    cases hl : dwe p l with
    | nil =>
      rw [dwe_cons_of_tail_nil p c l hl] at h ⊢
      by_cases hpc : p c = true
      · rw [if_pos hpc] at h
        exact absurd rfl h
      · rw [if_neg hpc]
        rfl
    | cons d r =>
      rw [dwe_cons_of_tail_cons p c d l r hl]
      rfl

theorem dwe_subset (p : Char → Bool) (l : List Char) : ∀ x ∈ dwe p l, x ∈ l := by
  induction l with
  | nil => simp [dwe_nil]
  | cons c l ih =>
    intro x hx
    cases hl : dwe p l with
    | nil =>
      rw [dwe_cons_of_tail_nil p c l hl] at hx
      by_cases hpc : p c = true
      · rw [if_pos hpc] at hx
        simp at hx
      · rw [if_neg hpc] at hx
        simp only [List.mem_singleton] at hx
        rw [hx]
        exact List.mem_cons_self c l
    | cons d r =>
      rw [dwe_cons_of_tail_cons p c d l r hl] at hx
      rcases List.mem_cons.mp hx with rfl | hx2
      · exact List.mem_cons_self x l
      · exact List.mem_cons_of_mem c (ih x (by rw [hl]; exact hx2))

theorem dwe_idem (p : Char → Bool) (l : List Char) : dwe p (dwe p l) = dwe p l := by
  induction l with
  | nil => rfl
  | cons c l ih =>
    cases hl : dwe p l with
    | nil =>
      rw [dwe_cons_of_tail_nil p c l hl]
      by_cases hpc : p c = true
      · rw [if_pos hpc]
        rfl
      · rw [if_neg hpc, dwe_singleton, if_neg hpc]
    | cons d r =>
      have ih' : dwe p (d :: r) = d :: r := by rw [← hl]; exact ih
      rw [dwe_cons_of_tail_cons p c d l r hl, dwe_cons, ih']

theorem mapRuns_single_run (g : List Char → List Char) (c : Char) (r : List Char)
    (hc : wordChar c = true) (hr : ∀ x ∈ r, wordChar x = true) :
    mapRuns g (c :: r) = g (c :: r) := by
  have h := mapRuns_run g c r [] hc hr (by simp)
  rw [List.append_nil] at h
  rw [h, mapRuns_nil, List.append_nil]

theorem wsChar_not_word (c : Char) (hc : wsChar c = true) : wordChar c = false := by
  simp only [wsChar, Bool.or_eq_true, decide_eq_true_eq] at hc
  rcases hc with ((((rfl | rfl) | rfl) | rfl) | rfl) | rfl <;> rfl

/-- `dwe` commutes with run rewriting when the dropped predicate holds for
no word character. -/
theorem dwe_mapRuns (g : List Char → List Char) (hg : GoodG g) (p : Char → Bool)
    (hp : ∀ c, p c = true → wordChar c = false) :
    ∀ l, dwe p (mapRuns g l) = mapRuns g (dwe p l) := by
  apply runs_induction
  · simp [mapRuns_nil, dwe_nil]
  · intro c l hc ih
    rw [mapRuns_cons_nonword g c l hc, dwe_cons, dwe_cons]
    have hiff : dwe p (mapRuns g l) = [] ↔ dwe p l = [] := by
      rw [dwe_eq_nil_iff, dwe_eq_nil_iff, mapRuns_all g hg p hp l]
    cases hl : dwe p l with
    | nil =>
      have hmz : dwe p (mapRuns g l) = [] := hiff.mpr hl
      rw [hmz]
      by_cases hpc : p c = true
      · rw [if_pos hpc]
        show ([] : List Char) = mapRuns g []
        rw [mapRuns_nil]
      · rw [if_neg hpc]
        show [c] = mapRuns g [c]
        rw [mapRuns_cons_nonword g c [] hc, mapRuns_nil]
    | cons d r =>
      have hne : dwe p (mapRuns g l) ≠ [] := by
        rw [Ne, hiff, hl]
        simp
      cases hm : dwe p (mapRuns g l) with
      | nil => exact absurd hm hne
      | cons e r' =>
        simp only
        rw [← hm, ih, hl, mapRuns_cons_nonword g c (d :: r) hc]
  · intro c l hc ih
    have hsplit := takeRun_append true l
    have hrall := takeRun_fst_all true l
    have hcall : ∀ x ∈ c :: (takeRun true l).1, wordChar x = true := by
      intro x hx
      rcases List.mem_cons.mp hx with rfl | hx
      · exact hc
      · exact hrall x hx
    obtain ⟨hne, hall⟩ := hg _ (by simp) hcall
    have hthead : ∀ x, (takeRun true l).2.head? = some x → wordChar x = false :=
      fun x hx => by simpa using takeRun_snd_head true l x hx
    have hgnot : ∀ x ∈ g (c :: (takeRun true l).1), p x = false := by
      intro x hx
      cases hpx : p x
      · rfl
      · exact absurd (hp x hpx) (by simp [hall x hx])
    have hcnot : ∀ x ∈ c :: (takeRun true l).1, p x = false := by
      intro x hx
      cases hpx : p x
      · rfl
      · exact absurd (hp x hpx) (by simp [hcall x hx])
    rw [mapRuns_cons_word g c l hc, dwe_append]
    have hiff : dwe p (mapRuns g (takeRun true l).2) = [] ↔ dwe p (takeRun true l).2 = [] := by
      rw [dwe_eq_nil_iff, dwe_eq_nil_iff, mapRuns_all g hg p hp]
    by_cases h2 : dwe p (takeRun true l).2 = []
    · rw [if_pos (hiff.mpr h2), dwe_all_not p _ hgnot]
      conv_rhs =>
        rw [← hsplit, ← List.cons_append, dwe_append, if_pos h2,
          dwe_all_not p _ hcnot]
      rw [mapRuns_single_run g c _ hc hrall]
    · rw [if_neg (fun hh => h2 (hiff.mp hh)), ih]
      conv_rhs =>
        rw [← hsplit, ← List.cons_append, dwe_append, if_neg h2]
      have hdhead : ∀ x, (dwe p (takeRun true l).2).head? = some x → wordChar x = false := by
        intro x hx
        rw [dwe_head p _ h2] at hx
        exact hthead x hx
      rw [mapRuns_run g c _ _ hc hrall hdhead]

/-- `dropWhile` commutes with run rewriting when the dropped predicate
holds for no word character. -/
theorem dropWhile_mapRuns (g : List Char → List Char) (hg : GoodG g) (p : Char → Bool)
    (hp : ∀ c, p c = true → wordChar c = false) :
    ∀ l, (mapRuns g l).dropWhile p = mapRuns g (l.dropWhile p) := by
  apply runs_induction
  · simp [mapRuns_nil]
  · intro c l hc ih
    rw [mapRuns_cons_nonword g c l hc]
    by_cases hpc : p c = true
    · rw [List.dropWhile_cons_of_pos hpc, List.dropWhile_cons_of_pos hpc, ih]
    · rw [List.dropWhile_cons_of_neg hpc, List.dropWhile_cons_of_neg hpc,
        mapRuns_cons_nonword g c l hc]
  · intro c l hc ih
    have hpc : p c = false := by
      cases hpc : p c
      · rfl
      · exact absurd (hp c hpc) (by simp [hc])
    rw [List.dropWhile_cons_of_neg (by simp [hpc]), mapRuns_cons_word g c l hc]
    obtain ⟨hne, hall⟩ := hg (c :: (takeRun true l).1) (by simp)
      (by
        intro x hx
        rcases List.mem_cons.mp hx with rfl | hx
        · exact hc
        · exact takeRun_fst_all true l x hx)
    obtain ⟨d, r', hd⟩ := List.exists_cons_of_ne_nil hne
    have hpd : p d = false := by
      cases hpd : p d
      · rfl
      · exact absurd (hp d hpd) (by simp [hall d (by simp [hd])])
    rw [hd, List.cons_append, List.dropWhile_cons_of_neg (by simp [hpd]), ← List.cons_append,
      ← hd, ← mapRuns_cons_word g c l hc]

/-- `trim` commutes with run rewriting. -/
theorem trim_mapRuns (g : List Char → List Char) (hg : GoodG g) (l : List Char) :
    trim (mapRuns g l) = mapRuns g (trim l) := by
  rw [trim, trim, dropWhile_mapRuns g hg wsChar wsChar_not_word,
    dwe_mapRuns g hg wsChar wsChar_not_word]

theorem head_dropWhile_false (p : Char → Bool) (l : List Char) :
    ∀ c, (l.dropWhile p).head? = some c → p c = false := by
  intro c hc
  have := List.head?_dropWhile_not p l
  rw [hc] at this
  simpa using this

theorem trim_idem (l : List Char) : trim (trim l) = trim l := by
  rw [trim, trim]
  have hdw : (dwe wsChar (l.dropWhile wsChar)).dropWhile wsChar
      = dwe wsChar (l.dropWhile wsChar) := by
    cases hz : dwe wsChar (l.dropWhile wsChar) with
    | nil => rfl
    | cons c r =>
      have hc : (dwe wsChar (l.dropWhile wsChar)).head? = some c := by simp [hz]
      rw [dwe_head wsChar _ (by simp [hz])] at hc
      have := head_dropWhile_false wsChar l c hc
      rw [hz] at *
      exact List.dropWhile_cons_of_neg (by simp [this])
  rw [hdw, dwe_idem]

/-! ### Idempotence of the normalizers

The substitution targets (`msec`, `milliseconds`, `sec`, `seconds`) and
replacements (`ms`, `s`) are concrete word-character strings; the facts
about them are decided.  An output of either substitution contains word
runs equal to `ms`, `s`, or runs that were not rewritten, so neither
substitution finds anything on a second pass; lower-casing, newline
replacement and stripping each fix their own output; and all stages
preserve the others' fixed points. -/

theorem toNat_ofNat_valid {n : Nat} (h : n.isValidChar) : (Char.ofNat n).toNat = n := by
  simp [Char.ofNat, h, Char.ofNatAux, Char.toNat, UInt32.toNat]

theorem toLower_toLower (c : Char) : c.toLower.toLower = c.toLower := by
  simp only [Char.toLower]
  by_cases h : c.toNat ≥ 65 ∧ c.toNat ≤ 90
  · rw [if_pos h]
    have hv : (c.toNat + 32).isValidChar := by
      left
      omega
    have ht : (Char.ofNat (c.toNat + 32)).toNat = c.toNat + 32 := toNat_ofNat_valid hv
    rw [if_neg]
    rw [ht]
    omega
  · rw [if_neg h, if_neg h]

theorem nl2sp_cases (c : Char) : nl2sp c = ' ' ∨ nl2sp c = c := by
  by_cases h : c = '\n'
  · exact Or.inl (by simp [nl2sp, h])
  · exact Or.inr (by simp [nl2sp, h])

theorem goodG_subst (alts : List (List Char)) (repl : List Char) (h1 : repl ≠ [])
    (h2 : ∀ c ∈ repl, wordChar c = true) :
    GoodG (fun r => if r ∈ alts then repl else r) := by
  intro r hne hall
  show (if r ∈ alts then repl else r) ≠ [] ∧
    ∀ c ∈ (if r ∈ alts then repl else r), wordChar c = true
  by_cases h : r ∈ alts
  · rw [if_pos h]
    exact ⟨h1, h2⟩
  · rw [if_neg h]
    exact ⟨hne, hall⟩

/-- The run rewriter of `sub_ms`. -/
def f_ms : List Char → List Char :=
  fun r => if r ∈ ["msec".data, "milliseconds".data] then "ms".data else r

/-- The run rewriter of `sub_s`. -/
def f_s : List Char → List Char :=
  fun r => if r ∈ ["sec".data, "seconds".data] then "s".data else r

theorem sub_ms_eq : sub_ms = mapRuns f_ms := rfl

theorem sub_s_eq : sub_s = mapRuns f_s := rfl

theorem ms_ne : "ms".data ≠ [] := by decide

theorem ms_word : ∀ c ∈ "ms".data, wordChar c = true := by decide

theorem s_ne : "s".data ≠ [] := by decide

theorem s_word : ∀ c ∈ "s".data, wordChar c = true := by decide

theorem ms_notin : "ms".data ∉ ["msec".data, "milliseconds".data] ∧
    "ms".data ∉ ["sec".data, "seconds".data] := by decide

theorem s_notin : "s".data ∉ ["msec".data, "milliseconds".data] ∧
    "s".data ∉ ["sec".data, "seconds".data] := by decide

theorem goodG_ms : GoodG f_ms := goodG_subst _ _ ms_ne ms_word

theorem goodG_s : GoodG f_s := goodG_subst _ _ s_ne s_word

theorem goodG_s_ms : GoodG (fun r => f_s (f_ms r)) := by
  intro r hne hall
  obtain ⟨h1, h2⟩ := goodG_ms r hne hall
  exact goodG_s _ h1 h2

theorem f_ms_f_s_f_ms (r : List Char) : f_ms (f_s (f_ms r)) = f_s (f_ms r) := by
  simp only [f_ms, f_s]
  by_cases h1 : r ∈ ["msec".data, "milliseconds".data]
  · rw [if_pos h1, if_neg ms_notin.2, if_neg ms_notin.1]
  · rw [if_neg h1]
    by_cases h2 : r ∈ ["sec".data, "seconds".data]
    · rw [if_pos h2, if_neg s_notin.1]
    · rw [if_neg h2, if_neg h1]

theorem f_s_f_s_f_ms (r : List Char) : f_s (f_s (f_ms r)) = f_s (f_ms r) := by
  simp only [f_ms, f_s]
  by_cases h1 : r ∈ ["msec".data, "milliseconds".data]
  · rw [if_pos h1, if_neg ms_notin.2, if_neg ms_notin.2]
  · rw [if_neg h1]
    by_cases h2 : r ∈ ["sec".data, "seconds".data]
    · rw [if_pos h2, if_neg s_notin.2]
    · rw [if_neg h2, if_neg h2]

/-- The output of `sub_s ∘ sub_ms` is fixed by both substitutions:
each rewritten run is `ms` or `s`, which match no alternative, and each
untouched run matched no alternative either. -/
theorem subs_fixpoint (l : List Char) :
    sub_ms (sub_s (sub_ms l)) = sub_s (sub_ms l) ∧
    sub_s (sub_s (sub_ms l)) = sub_s (sub_ms l) := by
  have hinner : sub_s (sub_ms l) = mapRuns (fun r => f_s (f_ms r)) l := by
    rw [sub_ms_eq, sub_s_eq, mapRuns_comp f_ms f_s goodG_ms]
  constructor
  · rw [hinner, sub_ms_eq, mapRuns_comp _ f_ms goodG_s_ms,
      mapRuns_congr _ _ (fun r _ _ => f_ms_f_s_f_ms r)]
  · rw [hinner, sub_s_eq, mapRuns_comp _ f_s goodG_s_ms,
      mapRuns_congr _ _ (fun r _ _ => f_s_f_s_f_ms r)]

theorem nl2sp_word_fix (c : Char) (hc : wordChar c = true) : nl2sp c = c := by
  rcases nl2sp_cases c with h | h
  · by_cases hn : c = '\n'
    · rw [hn] at hc
      exact absurd hc (by decide)
    · simp [nl2sp, hn]
  · exact h

theorem nl2sp_nonword (c : Char) (hc : wordChar c = false) :
    wordChar (nl2sp c) = false := by
  rcases nl2sp_cases c with h | h
  · rw [h]
    decide
  · rw [h]
    exact hc

/-- `nl2sp` commutes with both substitutions (applied character-wise). -/
theorem map_nl2sp_sub_ms (l : List Char) :
    (sub_ms l).map nl2sp = sub_ms (l.map nl2sp) := by
  rw [sub_ms_eq]
  exact map_mapRuns _ goodG_ms nl2sp nl2sp_word_fix nl2sp_nonword l

theorem map_nl2sp_sub_s (l : List Char) :
    (sub_s l).map nl2sp = sub_s (l.map nl2sp) := by
  rw [sub_s_eq]
  exact map_mapRuns _ goodG_s nl2sp nl2sp_word_fix nl2sp_nonword l

theorem trim_sub_ms (l : List Char) : trim (sub_ms l) = sub_ms (trim l) := by
  rw [sub_ms_eq]
  exact trim_mapRuns _ goodG_ms l

theorem trim_sub_s (l : List Char) : trim (sub_s l) = sub_s (trim l) := by
  rw [sub_s_eq]
  exact trim_mapRuns _ goodG_s l

/-- Characters of the output of a substitution with replacement `repl` that
satisfy `p` whenever the input and `repl` do. -/
theorem sub_pres (alts : List (List Char)) (repl : List Char) (p : Char → Prop)
    (hrepl : ∀ c ∈ repl, p c) (l : List Char) (hl : ∀ c ∈ l, p c) :
    ∀ c ∈ subRe alts repl l, p c := by
  refine mem_mapRuns _ p ?_ l hl
  intro r _ _ hr c hc
  by_cases h : r ∈ alts
  · rw [if_pos h] at hc
    exact hrepl c hc
  · rw [if_neg h] at hc
    exact hr c hc

theorem trim_pres (p : Char → Prop) (l : List Char) (hl : ∀ c ∈ l, p c) :
    ∀ c ∈ trim l, p c := by
  intro c hc
  exact hl c (List.dropWhile_subset wsChar (dwe_subset wsChar _ c hc))

theorem map_pres (f : Char → Char) (p : Char → Prop) (hf : ∀ c, p c → p (f c))
    (l : List Char) (hl : ∀ c ∈ l, p c) : ∀ c ∈ l.map f, p c := by
  intro c hc
  obtain ⟨d, hd, rfl⟩ := List.mem_map.mp hc
  exact hf d (hl d hd)

theorem ms_low : ∀ c ∈ "ms".data, Char.toLower c = c := by decide

theorem s_low : ∀ c ∈ "s".data, Char.toLower c = c := by decide

theorem ms_nonl : ∀ c ∈ "ms".data, c ≠ '\n' := by decide

theorem s_nonl : ∀ c ∈ "s".data, c ≠ '\n' := by decide

theorem low_pres_nl2sp (c : Char) (h : Char.toLower c = c) :
    Char.toLower (nl2sp c) = nl2sp c := by
  rcases nl2sp_cases c with hc | hc <;> rw [hc]
  · decide
  · exact h

theorem nonl_nl2sp (c : Char) : nl2sp c ≠ '\n' := by
  by_cases h : c = '\n'
  · simp [nl2sp, h]
  · simp [nl2sp, h]

theorem low_map (l : List Char) : ∀ c ∈ l.map Char.toLower, Char.toLower c = c := by
  intro c hc
  obtain ⟨d, _, rfl⟩ := List.mem_map.mp hc
  exact toLower_toLower d

theorem nonl_map (l : List Char) : ∀ c ∈ l.map nl2sp, c ≠ '\n' := by
  intro c hc
  obtain ⟨d, _, rfl⟩ := List.mem_map.mp hc
  exact nonl_nl2sp d

/-- All characters of `normalizeList l` are fixed by `Char.toLower`, are
not `'\n'`, and `normalizeList l` is fixed by `trim`. -/
theorem normalizeList_fixed (l : List Char) :
    (∀ c ∈ normalizeList l, Char.toLower c = c) ∧
    (∀ c ∈ normalizeList l, c ≠ '\n') ∧
    trim (normalizeList l) = normalizeList l := by
  refine ⟨?_, ?_, ?_⟩
  · refine trim_pres _ _ (map_pres nl2sp _ low_pres_nl2sp _ ?_)
    exact sub_pres _ _ _ s_low _ (sub_pres _ _ _ ms_low _ (low_map l))
  · exact trim_pres _ _ (nonl_map _)
  · exact trim_idem _

theorem normalizeList_idem (l : List Char) :
    normalizeList (normalizeList l) = normalizeList l := by
  obtain ⟨hlow, hnonl, htrim⟩ := normalizeList_fixed l
  have h1 : (normalizeList l).map Char.toLower = normalizeList l := list_map_id_on hlow
  have h4 : (normalizeList l).map nl2sp = normalizeList l :=
    list_map_id_on (fun c hc => by
      rcases nl2sp_cases c with h | h
      · by_cases hn : c = '\n'
        · exact absurd hn (hnonl c hc)
        · simp [nl2sp, hn]
      · exact h)
  have h2 : sub_ms (normalizeList l) = normalizeList l := by
    show sub_ms (trim ((sub_s (sub_ms (l.map Char.toLower))).map nl2sp)) = _
    rw [← trim_sub_ms, ← map_nl2sp_sub_ms, (subs_fixpoint _).1]
    rfl
  have h3 : sub_s (normalizeList l) = normalizeList l := by
    show sub_s (trim ((sub_s (sub_ms (l.map Char.toLower))).map nl2sp)) = _
    rw [← trim_sub_s, ← map_nl2sp_sub_s, (subs_fixpoint _).2]
    rfl
  show trim ((sub_s (sub_ms ((normalizeList l).map Char.toLower))).map nl2sp) = normalizeList l
  rw [h1, h2, h3, h4, htrim]

/-- Corresponding idempotence for the explainable normalizer
(substitutions last). -/
theorem normalizeListExp_idem (l : List Char) :
    normalizeListExp (normalizeListExp l) = normalizeListExp l := by
  have hlow : ∀ c ∈ normalizeListExp l, Char.toLower c = c := by
    refine sub_pres _ _ _ s_low _ (sub_pres _ _ _ ms_low _ (trim_pres _ _ ?_))
    exact map_pres nl2sp _ low_pres_nl2sp _ (low_map l)
  have hnonl : ∀ c ∈ normalizeListExp l, c ≠ '\n' := by
    exact sub_pres _ _ _ s_nonl _ (sub_pres _ _ _ ms_nonl _ (trim_pres _ _ (nonl_map _)))
  have h1 : (normalizeListExp l).map Char.toLower = normalizeListExp l := list_map_id_on hlow
  have h4 : (normalizeListExp l).map nl2sp = normalizeListExp l :=
    list_map_id_on (fun c hc => by
      rcases nl2sp_cases c with h | h
      · by_cases hn : c = '\n'
        · exact absurd hn (hnonl c hc)
        · simp [nl2sp, hn]
      · exact h)
  have htrim : trim (normalizeListExp l) = normalizeListExp l := by
    show trim (sub_s (sub_ms (trim ((l.map Char.toLower).map nl2sp)))) = _
    rw [trim_sub_s, trim_sub_ms, trim_idem]
    rfl
  have h2 : sub_ms (normalizeListExp l) = normalizeListExp l := by
    show sub_ms (sub_s (sub_ms (trim ((l.map Char.toLower).map nl2sp)))) = _
    exact (subs_fixpoint _).1
  have h3 : sub_s (normalizeListExp l) = normalizeListExp l := by
    show sub_s (sub_s (sub_ms (trim ((l.map Char.toLower).map nl2sp)))) = _
    exact (subs_fixpoint _).2
  show sub_s (sub_ms (trim (((normalizeListExp l).map Char.toLower).map nl2sp))) = _
  rw [h1, h4, htrim, h2, h3]

/-! ## 7. `MRSParser.parse` (mrs_parser.py, lines 216–244)

The method extracts the metadata fields, normalizes the raw text, runs
`_determine_slot_state` for the 8 slots (the keys of `PATTERNS` that do not
start with `Strong_`), determines the type, and applies the missingness
rules.  `TextFacts` carries the `re` results for the normalized text. -/

structure ItemMeta where
  id : String
  raw_text : String
  vehicle : String := ""
  controller : String := ""
  safety_goal : String := ""
  safe_state : String := ""
  ftti : String := ""
deriving DecidableEq, Repr

structure ParsedRequirement where
  id : String
  raw_text : String
  normalized_text : String
  vehicle : String
  controller : String
  safety_goal : String
  safe_state : String
  ftti : String
  slots : SlotName → SlotData
  mrs_type : String
  missing_items : List MissingItem

/-- The per-requirement `slots` dict: keys are exactly the 8 slot names. -/
def slots_dict (f : SlotName → SlotData) : String → Option SlotData :=
  fun k => (slotOfKey k).map f

/-- `MRSParser.parse`.  A `KeyError` raised by `_determine_mrs_type` (an
unknown slot name in the decision table, see section 3) aborts the call. -/
def parse_py (rules : Rules) (meta : ItemMeta) (tf : TextFacts) :
    Except String ParsedRequirement :=
  let slots := fun s => determine_slot_state tf s
  match determine_mrs_type_py rules.mrs_only_types (slots_dict slots) with
  | .error e => .error e
  | .ok ty =>
    .ok { id := meta.id
          raw_text := meta.raw_text
          normalized_text := normalize meta.raw_text
          vehicle := meta.vehicle
          controller := meta.controller
          safety_goal := meta.safety_goal
          safe_state := meta.safe_state
          ftti := meta.ftti
          slots := slots
          mrs_type := ty
          missing_items := apply_missingness_rules rules.matrix ty
            (fun s => (determine_slot_state tf s).state) }

/-! ## 8. Helper lemmas about the explainable pipeline stages -/

theorem ite_app (c : Prop) [Decidable c] (f g : SlotName → SlotState) (s : SlotName) :
    (if c then f else g) s = if c then f s else g s := by
  split_ifs <;> rfl

theorem strong_step_ne (o : MatchOracle) (acc : SlotName → SlotState) (s t : SlotName)
    (h : t ≠ s) : strong_step o acc s t = acc t := by
  unfold strong_step
  split_ifs
  · exact upd_ne acc OK h
  · rfl

theorem stage2_at_anchor (o : MatchOracle) (st : SlotName → SlotState) :
    stage2 o st Anchor = if st Anchor = WEAK then OK else st Anchor := by
  simp [stage2, strong_step, ite_app, upd]

theorem stage2_at_what (o : MatchOracle) (st : SlotName → SlotState) :
    stage2 o st What = if st What = WEAK then OK else st What := by
  simp [stage2, strong_step, ite_app, upd]

theorem stage2_at_why (o : MatchOracle) (st : SlotName → SlotState) :
    stage2 o st Why = st Why := by
  simp [stage2, strong_step, ite_app, upd]

theorem stage2_at_howtype (o : MatchOracle) (st : SlotName → SlotState) :
    stage2 o st HowType = st HowType := by
  simp [stage2, strong_step, ite_app, upd]

theorem stage3a_at (st : SlotName → SlotState) (t : SlotName)
    (h1 : t ≠ When) (h2 : t ≠ Constraints) : stage3a st t = st t := by
  simp [stage3a, ite_app, upd, h1, h2]

theorem stage3b_at (st : SlotName → SlotState) (t : SlotName) (h : t ≠ HowType) :
    stage3b st t = st t := by
  simp [stage3b, ite_app, upd, h]

theorem stage3a_when_absent (st : SlotName → SlotState) (h : st Anchor = ABSENT) :
    stage3a st When ≠ OK := by
  have hw : stage3a st When = if st When = OK then WEAK else st When := by
    simp [stage3a, h, ite_app, upd]
  rw [hw]
  split_ifs with h2
  · simp
  · exact h2

theorem stage3a_constraints_absent (st : SlotName → SlotState) (h : st Anchor = ABSENT) :
    stage3a st Constraints ≠ OK := by
  have hw : stage3a st Constraints = if st Constraints = OK then WEAK else st Constraints := by
    simp [stage3a, h, ite_app, upd]
  rw [hw]
  split_ifs with h2
  · simp
  · exact h2

theorem stage3b_howtype_absent (st : SlotName → SlotState) (h : st What = ABSENT) :
    stage3b st HowType ≠ OK := by
  have hw : stage3b st HowType = if st HowType = OK then WEAK else st HowType := by
    simp [stage3b, h, ite_app, upd]
  rw [hw]
  split_ifs with h2
  · simp
  · exact h2

/-! Helper lemmas about the v04 hierarchy validator. -/

theorem prune04_state_ne (sd : SlotData04) : (prune04 sd).state ≠ OK := by
  unfold prune04
  split_ifs with h
  · simp
  · exact h

theorem apply_relation_not_sub (sup : SlotName) (subs : List SlotName)
    (sl : SlotName → SlotData04) (n : SlotName) (h : n ∉ subs) :
    apply_relation sup subs sl n = sl n := by
  unfold apply_relation
  split_ifs
  · simp [h]
  · rfl

theorem apply_relation_sub_absent (sup : SlotName) (subs : List SlotName)
    (sl : SlotName → SlotData04) (n : SlotName) (hsup : (sl sup).state = ABSENT)
    (hn : n ∈ subs) : apply_relation sup subs sl n = prune04 (sl n) := by
  unfold apply_relation
  rw [if_pos hsup]
  simp [hn]

/-! ## 9. The claims -/

/-- Concrete oracle: only the What lexical pattern matches.  Realized by the
raw text `"shall"`: normalized to itself, it matches the explainable
parser's `What` pattern (literal alternative `shall`) and none of the other
lexical or `Strong_` patterns (no digit, no keyword of `Why`, `Anchor`,
`HowType`, `When`, `Constraints`, `Verification` or `AcceptanceCriteria`
occurs in `"shall"`). -/
def oracle_what : MatchOracle :=
  { lex := fun s => s == What, strong := fun _ => false }

/-- C1 (counterexample): on the oracle of the text `"shall"`, the
explainable parser ends with Anchor `ABSENT` and What `OK` after relation
correction — the `Anchor → What` hierarchy edge is not enforced, so the
claim "if Anchor is ABSENT then What is capped at WEAK" fails on
`AdvancedRuleParser.parse` (whose Stage 3 demotes only When/Constraints on
a missing Anchor, and HowType on a missing What). -/
theorem c1_counterexample :
    adv_slots oracle_what Anchor = ABSENT ∧ adv_slots oracle_what What = OK := by
  constructor <;> decide

/-- C1 (amended): the relation corrections actually performed hold: in the
explainable parser, Anchor `ABSENT` caps When and Constraints below `OK`,
and What `ABSENT` caps HowType below `OK`; and v04's `HierarchyValidator`
does enforce all three declared `HIERARCHY_RELATIONS` edges (demoting an
`OK` subordinate to `ABSENT`), including the two-hop cascade through
What. -/
theorem c1_amended :
    (∀ o : MatchOracle,
      (adv_slots o Anchor = ABSENT →
        adv_slots o When ≠ OK ∧ adv_slots o Constraints ≠ OK) ∧
      (adv_slots o What = ABSENT → adv_slots o HowType ≠ OK)) ∧
    (∀ sl : SlotName → SlotData04,
      ((hierarchy_validate sl Anchor).state = ABSENT →
        (hierarchy_validate sl What).state ≠ OK) ∧
      ((hierarchy_validate sl What).state = ABSENT →
        (hierarchy_validate sl When).state ≠ OK ∧
        (hierarchy_validate sl Constraints).state ≠ OK ∧
        (hierarchy_validate sl HowType).state ≠ OK) ∧
      ((hierarchy_validate sl Verification).state = ABSENT →
        (hierarchy_validate sl AcceptanceCriteria).state ≠ OK)) := by
  constructor
  · intro o
    constructor
    · intro hA
      have hP : adv_promoted o Anchor = ABSENT := by
        have h1 := stage3b_at (stage3a (adv_promoted o)) Anchor (by decide)
        have h2 := stage3a_at (adv_promoted o) Anchor (by decide) (by decide)
        rw [adv_slots, h1, h2] at hA
        exact hA
      constructor
      · have h1 := stage3b_at (stage3a (adv_promoted o)) When (by decide)
        rw [adv_slots, h1]
        exact stage3a_when_absent _ hP
      · have h1 := stage3b_at (stage3a (adv_promoted o)) Constraints (by decide)
        rw [adv_slots, h1]
        exact stage3a_constraints_absent _ hP
    · intro hW
      have hP : stage3a (adv_promoted o) What = ABSENT := by
        have h1 := stage3b_at (stage3a (adv_promoted o)) What (by decide)
        rw [adv_slots, h1] at hW
        exact hW
      rw [adv_slots]
      exact stage3b_howtype_absent _ hP
  · intro sl
    refine ⟨?_, ?_, ?_⟩
    · intro hA
      have hA0 : (sl Anchor).state = ABSENT := by
        rw [hierarchy_validate, apply_relation_not_sub _ _ _ Anchor (by decide),
          apply_relation_not_sub _ _ _ Anchor (by decide),
          apply_relation_not_sub _ _ _ Anchor (by decide)] at hA
        exact hA
      rw [hierarchy_validate, apply_relation_not_sub _ _ _ What (by decide),
        apply_relation_not_sub _ _ _ What (by decide),
        apply_relation_sub_absent _ _ _ What hA0 (by decide)]
      exact prune04_state_ne _
    · intro hW
      have hW1 : (apply_relation Anchor [What] sl What).state = ABSENT := by
        rw [hierarchy_validate, apply_relation_not_sub _ _ _ What (by decide),
          apply_relation_not_sub _ _ _ What (by decide)] at hW
        exact hW
      refine ⟨?_, ?_, ?_⟩
      · rw [hierarchy_validate, apply_relation_not_sub _ _ _ When (by decide),
          apply_relation_sub_absent _ _ _ When hW1 (by decide),
          apply_relation_not_sub _ _ _ When (by decide)]
        exact prune04_state_ne _
      · rw [hierarchy_validate, apply_relation_not_sub _ _ _ Constraints (by decide),
          apply_relation_sub_absent _ _ _ Constraints hW1 (by decide),
          apply_relation_not_sub _ _ _ Constraints (by decide)]
        exact prune04_state_ne _
      · rw [hierarchy_validate, apply_relation_not_sub _ _ _ HowType (by decide),
          apply_relation_sub_absent _ _ _ HowType hW1 (by decide),
          apply_relation_not_sub _ _ _ HowType (by decide)]
        exact prune04_state_ne _
    · intro hV
      have hV0 : (apply_relation What [When, Constraints, HowType]
          (apply_relation Anchor [What] sl) Verification).state = ABSENT := by
        rw [hierarchy_validate, apply_relation_not_sub _ _ _ Verification (by decide)] at hV
        exact hV
      rw [hierarchy_validate,
        apply_relation_sub_absent _ _ _ AcceptanceCriteria hV0 (by decide)]
      exact prune04_state_ne _

/-- C1 amended witness: the all-absent oracle (empty text). -/
theorem c1_amended_witness :
    adv_slots { lex := fun _ => false, strong := fun _ => false } Anchor = ABSENT ∧
    adv_slots { lex := fun _ => false, strong := fun _ => false } When ≠ OK := by
  refine ⟨by decide, ?_⟩
  exact ((c1_amended.1 { lex := fun _ => false, strong := fun _ => false }).1 (by decide)).1

/-- Concrete oracle: only the Why lexical pattern matches.  Realized by the
raw text `"to prevent"`: normalized to itself, it matches the explainable
parser's `Why` pattern (alternative `to prevent`) and none of the other
lexical or `Strong_` patterns. -/
def oracle_why : MatchOracle :=
  { lex := fun s => s == Why, strong := fun _ => false }

/-- C2 (counterexample): on the oracle of the text `"to prevent"`, the slot
Why has a lexical candidate yet ends the explainable parser's structural
promotion stage in state `WEAK`, not `OK`: `AdvancedRuleParser.parse`
promotes only Anchor and What unconditionally (lines 132–133); Why and
HowType are never promoted. -/
theorem c2_counterexample :
    oracle_why.lex Why = true ∧ adv_promoted oracle_why Why = WEAK ∧
      adv_promoted oracle_why Why ≠ OK := by
  refine ⟨by decide, by decide, by decide⟩

/-- C2 (amended): in `mrs_parser.py` (`_determine_slot_state`), each of
Anchor, What, Why, HowType — the slots without a `Strong_` key in
`PATTERNS` — is `OK` whenever any lexical candidate exists; in the
explainable variant only Anchor and What are promoted to `OK` on lexical
evidence, while Why and HowType end structural promotion in `WEAK`. -/
theorem c2_amended :
    (∀ (tf : TextFacts) (s : SlotName), s ∈ [Anchor, What, Why, HowType] →
      tf.candidates s ≠ [] → (determine_slot_state tf s).state = OK) ∧
    (∀ o : MatchOracle,
      (o.lex Anchor = true → adv_promoted o Anchor = OK) ∧
      (o.lex What = true → adv_promoted o What = OK) ∧
      (o.lex Why = true → adv_promoted o Why = WEAK) ∧
      (o.lex HowType = true → adv_promoted o HowType = WEAK)) := by
  constructor
  · intro tf s hs hc
    have hk : has_strong_key s = false := by
      simp only [List.mem_cons, List.not_mem_nil, or_false] at hs
      rcases hs with rfl | rfl | rfl | rfl <;> decide
    rw [determine_slot_state, if_neg hc]
    simp [hk]
  · intro o
    refine ⟨?_, ?_, ?_, ?_⟩
    · intro h
      rw [adv_promoted, stage2_at_anchor, stage1]
      simp [h]
    · intro h
      rw [adv_promoted, stage2_at_what, stage1]
      simp [h]
    · intro h
      rw [adv_promoted, stage2_at_why, stage1]
      simp [h]
    · intro h
      rw [adv_promoted, stage2_at_howtype, stage1]
      simp [h]

/-- C2 amended witness: the all-matching oracle and a one-candidate
`TextFacts`. -/
theorem c2_amended_witness :
    (determine_slot_state
      { candidates := fun _ => ["shall"], spans := fun _ => [(0, 5)]
        strong := fun _ => false } What).state = OK ∧
    adv_promoted { lex := fun _ => true, strong := fun _ => true } Why = WEAK := by
  constructor
  · exact c2_amended.1 _ What (by decide) (by simp)
  · exact (c2_amended.2 { lex := fun _ => true, strong := fun _ => true }).2.2.1 rfl

/-- The `TextFacts` of the raw text `"acceptance"` under `mrs_parser.py`:
normalized to itself, it matches only the `AcceptanceCriteria` lexical
pattern (alternative `acceptance`, at span (0, 10)); no `Strong_` pattern
matches (`Strong_AC` needs `pass`, `fail`, `threshold` or a Korean
criteria phrase). -/
def tf_acceptance : TextFacts :=
  { candidates := fun s => if s = AcceptanceCriteria then ["acceptance"] else []
    spans := fun s => if s = AcceptanceCriteria then [(0, 10)] else []
    strong := fun _ => false }

/-- C3 (code bug, mrs_parser.py): `_determine_slot_state` promotes
AcceptanceCriteria to `OK` on the bare keyword `"acceptance"` although no
strong structural pattern matched: the strong gate looks up the key
`"Strong_AcceptanceCriteria"`, but `PATTERNS` names its strong
acceptance-criteria pattern `"Strong_AC"` (a dead entry), so the `else`
branch promotes unconditionally.  The claim (strong-gated promotion for
the four structural slots) is honoured by the explainable and v02
variants, which use the key `Strong_AcceptanceCriteria` or exclude the
slot from auto-promotion. -/
theorem c3_code_bug :
    has_strong_key AcceptanceCriteria = false ∧
    tf_acceptance.strong AcceptanceCriteria = false ∧
    (determine_slot_state tf_acceptance AcceptanceCriteria).state = OK := by
  refine ⟨by decide, by decide, by decide⟩

/-- First-match semantics of `determine_mrs_type` over any ordered
table. -/
theorem determine_first_match (st : SlotName → SlotState) :
    ∀ config : List TypeEntry,
      ((∀ e ∈ config, satisfies_all st e.2 = false) →
        (determine_mrs_type config st).1 = "Unknown") ∧
      (∀ i (hi : i < config.length), satisfies_all st (config.get ⟨i, hi⟩).2 = true →
        (∀ j (_hj : j < i) (hj2 : j < config.length),
          satisfies_all st (config.get ⟨j, hj2⟩).2 = false) →
        (determine_mrs_type config st).1 = (config.get ⟨i, hi⟩).1) := by
  intro config
  induction config with
  | nil =>
    constructor
    · intro _
      rfl
    · intro i hi
      exact absurd hi (Nat.not_lt_zero i)
  | cons e rest ih =>
    obtain ⟨t, conds⟩ := e
    constructor
    · intro hall
      have hh : satisfies_all st conds = false := hall (t, conds) (List.mem_cons_self _ _)
      rw [determine_mrs_type, if_neg (by simp [hh])]
      exact ih.1 (fun e he => hall e (List.mem_cons_of_mem _ he))
    · intro i hi hsat hprev
      match i with
      | 0 =>
        rw [determine_mrs_type, if_pos (by simpa using hsat)]
        rfl
      | Nat.succ i' =>
        have h0 : satisfies_all st conds = false := by
          have := hprev 0 (Nat.succ_pos i') (by simp)
          simpa using this
        rw [determine_mrs_type, if_neg (by simp [h0])]
        have hi' : i' < rest.length := by simpa using hi
        refine (ih.2 i' hi' (by simpa using hsat) ?_)
        intro j hj hj2
        have := hprev (j + 1) (Nat.succ_lt_succ hj) (by simpa using hj2)
        simpa using this

/-- C4: on the fixed `DEFAULT_MRS_CONFIG` table (priority order
T6_VerificationCentric, T5_ConstraintCentric, T4_WhenCentric,
T3_HowTypeCentric, T2_WhatCentric, T1_WhyCentric), the archetype returned
by `determine_mrs_type` is always the first entry whose full conjunction of
slot-state criteria is satisfied — no lower-priority entry is returned
while a higher-priority one matches — and when no entry's conjunction holds
the result is `Unknown`. -/
theorem c4_type_priority (st : SlotName → SlotState) :
    ((∀ e ∈ default_config, satisfies_all st e.2 = false) →
      (determine_mrs_type default_config st).1 = "Unknown") ∧
    (∀ i (hi : i < default_config.length),
      satisfies_all st (default_config.get ⟨i, hi⟩).2 = true →
      (∀ j (_hj : j < i) (hj2 : j < default_config.length),
        satisfies_all st (default_config.get ⟨j, hj2⟩).2 = false) →
      (determine_mrs_type default_config st).1 = (default_config.get ⟨i, hi⟩).1) :=
  determine_first_match st default_config

/-- C4 witness: with every slot `OK`, the highest-priority archetype T6 is
returned; with only Constraints `OK`, T5 is returned although T5 is not the
last matching candidate context. -/
theorem c4_witness :
    (determine_mrs_type default_config (fun _ => OK)).1 = "T6_VerificationCentric" ∧
    (determine_mrs_type default_config
      (fun s => if s = Constraints then OK else ABSENT)).1 = "T5_ConstraintCentric" := by
  constructor
  · exact (c4_type_priority (fun _ => OK)).2 0 (by decide) (by decide)
      (fun j hj _ => absurd hj (Nat.not_lt_zero j))
  · refine (c4_type_priority _).2 1 (by decide) (by decide) ?_
    intro j hj hj2
    have hj0 : j = 0 := by omega
    subst hj0
    show satisfies_all _ (default_config.get ⟨0, by decide⟩).2 = false
    decide

/-! Helper lemmas about the missingness engine of mrs_parser.py. -/

theorem apply_missingness_eq_none {exps : ExpMatrix} {ty : String}
    (st : SlotName → SlotState) (h : lookupD exps ty = none) :
    apply_missingness_rules exps ty st = [] := by
  unfold apply_missingness_rules
  rw [h]

theorem apply_missingness_eq_some {exps : ExpMatrix} {ty : String}
    {m : List (SlotName × String)} (st : SlotName → SlotState)
    (h : lookupD exps ty = some m) :
    apply_missingness_rules exps ty st = verification_relax st (missing_stage_sa m st) := by
  unfold apply_missingness_rules
  rw [h]

theorem apply_missingness_v02_eq_none {exps : ExpMatrix} {ty : String}
    (st : SlotName → SlotState) (h : lookupD exps ty = none) :
    apply_missingness_rules_v02 exps ty st = [] := by
  unfold apply_missingness_rules_v02
  rw [h]

theorem apply_missingness_v02_eq_some {exps : ExpMatrix} {ty : String}
    {m : List (SlotName × String)} (st : SlotName → SlotState)
    (h : lookupD exps ty = some m) :
    apply_missingness_rules_v02 exps ty st =
      verification_relax_v02 st (anchor_override_v02 st (missing_stage_s_v02 ty m st)) := by
  unfold apply_missingness_rules_v02
  rw [h]

theorem base_item_slot (s : SlotName) (e : String) : (base_item s e).slot = s := by
  unfold base_item
  split_ifs <;> rfl

theorem mem_stage_s_slot (m : List (SlotName × String)) (st : SlotName → SlotState) :
    ∀ i ∈ missing_stage_s m st, i.slot ∈ m.map Prod.fst := by
  intro i hi
  rw [missing_stage_s] at hi
  obtain ⟨p, hp, hf⟩ := List.mem_filterMap.mp hi
  by_cases h : st p.1 = ABSENT
  · rw [if_pos h] at hf
    obtain rfl : base_item p.1 p.2 = i := Option.some.inj hf
    rw [base_item_slot]
    exact List.mem_map.mpr ⟨p, hp, rfl⟩
  · rw [if_neg h] at hf
    cases hf

theorem stage_s_cons_absent {k : SlotName} {e : String}
    {rest : List (SlotName × String)} (st : SlotName → SlotState)
    (h : st k = ABSENT) :
    missing_stage_s ((k, e) :: rest) st = base_item k e :: missing_stage_s rest st := by
  simp [missing_stage_s, List.filterMap_cons, h]

theorem stage_s_cons_present {k : SlotName} {e : String}
    {rest : List (SlotName × String)} (st : SlotName → SlotState)
    (h : ¬ st k = ABSENT) :
    missing_stage_s ((k, e) :: rest) st = missing_stage_s rest st := by
  simp [missing_stage_s, List.filterMap_cons, h]

theorem countP_stage_s (m : List (SlotName × String)) (st : SlotName → SlotState)
    (s : SlotName) (hnd : (m.map Prod.fst).Nodup) :
    (missing_stage_s m st).countP (fun i => i.slot == s) =
      if st s = ABSENT ∧ (m.lookup s).isSome then 1 else 0 := by
  induction m with
  | nil => simp [missing_stage_s, List.lookup]
  | cons p rest ih =>
    obtain ⟨k, e⟩ := p
    rw [List.map_cons, List.nodup_cons] at hnd
    obtain ⟨hk, hnd'⟩ := hnd
    by_cases hks : k = s
    · subst hks
      have hlook : (((k, e) :: rest).lookup k).isSome = true := by
        simp [List.lookup]
      by_cases habs : st k = ABSENT
      · rw [stage_s_cons_absent st habs, List.countP_cons]
        have hone : ((base_item k e).slot == k) = true := by
          simp [base_item_slot]
        have hzero : (missing_stage_s rest st).countP (fun i => i.slot == k) = 0 := by
          rw [List.countP_eq_zero]
          intro i hi
          have hmem := mem_stage_s_slot rest st i hi
          simp only [beq_iff_eq]
          intro hsl
          rw [hsl] at hmem
          exact hk hmem
        rw [hzero, hone]
        simp [habs, hlook]
      · rw [stage_s_cons_present st habs, ih hnd']
        simp [habs]
    · have hbeq : (s == k) = false := by
        simp only [beq_eq_false_iff_ne, ne_eq]
        exact fun h => hks h.symm
      have hlook : ((k, e) :: rest).lookup s = rest.lookup s := by
        simp [List.lookup, hbeq]
      by_cases habs : st k = ABSENT
      · rw [stage_s_cons_absent st habs, List.countP_cons]
        have hzero : ((base_item k e).slot == s) = false := by
          simp [base_item_slot, hks]
        rw [hzero, ih hnd', hlook]
        simp
      · rw [stage_s_cons_present st habs, ih hnd', hlook]

theorem countP_map_slot (f : MissingItem → MissingItem)
    (hf : ∀ i, (f i).slot = i.slot) (items : List MissingItem) (s : SlotName) :
    (items.map f).countP (fun i => i.slot == s) =
      items.countP (fun i => i.slot == s) := by
  rw [List.countP_map]
  exact List.countP_congr (fun i _ => by simp [Function.comp, hf i])

theorem anchor_override_countP (st : SlotName → SlotState) (items : List MissingItem)
    (s : SlotName) :
    (anchor_override st items).countP (fun i => i.slot == s) =
      items.countP (fun i => i.slot == s) := by
  unfold anchor_override
  split_ifs
  · exact countP_map_slot _ (fun i => by split_ifs <;> rfl) items s
  · rfl

theorem what_override_countP (items : List MissingItem) (s : SlotName) :
    (what_override items).countP (fun i => i.slot == s) =
      items.countP (fun i => i.slot == s) := by
  unfold what_override
  exact countP_map_slot _ (fun i => by split_ifs <;> rfl) items s

theorem verification_relax_countP (st : SlotName → SlotState) (items : List MissingItem)
    (s : SlotName) :
    (verification_relax st items).countP (fun i => i.slot == s) =
      items.countP (fun i => i.slot == s) := by
  unfold verification_relax
  split_ifs
  · exact countP_map_slot _ (fun i => by split_ifs <;> rfl) items s
  · rfl

/-- C5: the slots that receive a finding are exactly the `ABSENT` slots
with an entry in the determined archetype's expectation-matrix row, one
finding each (the Nodup hypothesis reflects that a Python dict cannot have
duplicate keys); and the Stage-S base label is `ActionableMissing` for a
`M` entry, `DeferredMissing` for `R`, `PermissibleMissing` for `O`. -/
theorem c5_finding_coverage (exps : ExpMatrix) (ty : String) (st : SlotName → SlotState)
    (hnd : ∀ m, lookupD exps ty = some m → (m.map Prod.fst).Nodup) :
    (∀ s : SlotName,
      (apply_missingness_rules exps ty st).countP (fun i => i.slot == s) =
        if st s = ABSENT ∧ (((lookupD exps ty).getD []).lookup s).isSome then 1 else 0) ∧
    (∀ m, lookupD exps ty = some m → ∀ s e, (s, e) ∈ m → st s = ABSENT →
      base_item s e ∈ missing_stage_s m st ∧
      (e = "M" → (base_item s e).label = ACTIONABLE) ∧
      (e = "R" → (base_item s e).label = DEFERRED) ∧
      (e = "O" → (base_item s e).label = PERMISSIBLE)) := by
  constructor
  · intro s
    cases hl : lookupD exps ty with
    | none =>
      rw [apply_missingness_eq_none st hl]
      simp [List.lookup]
    | some m =>
      rw [apply_missingness_eq_some st hl, missing_stage_sa, verification_relax_countP,
        what_override_countP, anchor_override_countP, countP_stage_s m st s (hnd m hl)]
      rfl
  · intro m _ s e hm habs
    refine ⟨?_, ?_, ?_, ?_⟩
    · rw [missing_stage_s]
      exact List.mem_filterMap.mpr ⟨(s, e), hm, by rw [if_pos habs]⟩
    · intro he
      subst he
      simp [base_item]
    · intro he
      subst he
      simp [base_item]
    · intro he
      subst he
      simp [base_item]

/-- Concrete matrix row and state vector for the C5 witness. -/
def exps_c5 : ExpMatrix := [("T5_ConstraintCentric", [(What, "M"), (Verification, "O")])]

def st_c5 : SlotName → SlotState := fun s => if s = Anchor then OK else ABSENT

/-- C5 witness: at the concrete matrix, the `ABSENT` slot What with an
entry gets exactly one finding, the `OK` slot Anchor none. -/
theorem c5_witness :
    (apply_missingness_rules exps_c5 "T5_ConstraintCentric" st_c5).countP
      (fun i => i.slot == What) = 1 ∧
    (apply_missingness_rules exps_c5 "T5_ConstraintCentric" st_c5).countP
      (fun i => i.slot == Anchor) = 0 := by
  have h := c5_finding_coverage exps_c5 "T5_ConstraintCentric" st_c5 (by
    intro m hm
    rw [show lookupD exps_c5 "T5_ConstraintCentric" =
      some [(What, "M"), (Verification, "O")] by rfl] at hm
    cases hm
    decide)
  constructor
  · rw [h.1 What]
    decide
  · rw [h.1 Anchor]
    decide

/-! Helper lemmas for the override stages. -/

theorem what_override_label (items : List MissingItem) :
    ∀ i ∈ what_override items, i.slot = What → i.label = ACTIONABLE := by
  intro i hi hw
  obtain ⟨j, _, hj⟩ := List.mem_map.mp hi
  by_cases hjs : j.slot = What
  · rw [if_pos hjs] at hj
    rw [← hj]
  · rw [if_neg hjs] at hj
    rw [← hj] at hw
    exact absurd hw hjs

theorem verification_relax_mem_of_ne (st : SlotName → SlotState)
    (items : List MissingItem) :
    ∀ i ∈ verification_relax st items, i.slot ≠ Verification → i ∈ items := by
  intro i hi hne
  unfold verification_relax at hi
  split_ifs at hi
  · obtain ⟨j, hj, hij⟩ := List.mem_map.mp hi
    by_cases hjs : j.slot = Verification
    · rw [if_pos hjs] at hij
      exact absurd (by rw [← hij]; exact hjs) hne
    · rw [if_neg hjs] at hij
      rw [← hij]
      exact hj
  · exact hi

/-- C6: every finding for the slot What — which exists exactly when What's
final state is `ABSENT` and the archetype's matrix row has a What entry —
carries the label `ActionableMissing` after all overrides: rule A-WT1
forces it, rule P-VV1 touches only Verification findings afterwards. -/
theorem c6_what_always_actionable (exps : ExpMatrix) (ty : String)
    (st : SlotName → SlotState) :
    ∀ i ∈ apply_missingness_rules exps ty st, i.slot = What → i.label = ACTIONABLE := by
  intro i hi hw
  cases hl : lookupD exps ty with
  | none =>
    rw [apply_missingness_eq_none st hl] at hi
    simp at hi
  | some m =>
    rw [apply_missingness_eq_some st hl] at hi
    have hmem : i ∈ missing_stage_sa m st :=
      verification_relax_mem_of_ne st _ i hi (by rw [hw]; decide)
    rw [missing_stage_sa] at hmem
    exact what_override_label _ i hmem hw

/-- C6 witness: a concrete matrix whose What entry is Optional (base label
would be Permissible) still ends with an `ActionableMissing` What
finding. -/
theorem c6_witness :
    (base_item What "O").label = PERMISSIBLE ∧
    (⟨What, ACTIONABLE, "Rule A-WT1: Core requirement missing."⟩ : MissingItem) ∈
      apply_missingness_rules [("T1_WhyCentric", [(What, "O")])] "T1_WhyCentric"
        (fun _ => ABSENT) ∧
    (⟨What, ACTIONABLE, "Rule A-WT1: Core requirement missing."⟩ : MissingItem).label
      = ACTIONABLE := by
  refine ⟨by decide, by decide, ?_⟩
  exact c6_what_always_actionable [("T1_WhyCentric", [(What, "O")])] "T1_WhyCentric"
    (fun _ => ABSENT) _ (by decide) rfl

/-- The T5_ConstraintCentric row of v02's embedded
`DEFAULT_MRS_CONFIG` expectation matrix. -/
def matrix_v02_T5 : List (SlotName × String) :=
  [(Why, "R"), (Anchor, "M"), (What, "M"), (HowType, "R"), (When, "R"),
   (Constraints, "M"), (Verification, "R"), (AcceptanceCriteria, "O")]

def exps_v02 : ExpMatrix := [("T5_ConstraintCentric", matrix_v02_T5)]

/-- State vector reachable in mrs_parser_v02.py from the normalized text
`"if overheated, the door shall close within 200 ms"`: `shall` gives What
`OK` (no strong gate for What), `if …,` matches `Strong_When`, `200 ms`
matches `Strong_Constraints`, and no Anchor / Why / HowType / Verification /
AcceptanceCriteria keyword occurs, so those stay `ABSENT`;
v02 has no relation-correction stage.  Its type determination gives
`T5_ConstraintCentric` (T6 needs Verification `OK`). -/
def st_v02_cx : SlotName → SlotState :=
  fun s => if s = What ∨ s = When ∨ s = Constraints then OK else ABSENT

/-- C7 (counterexample): in `mrs_parser_v02.py` (cited lines 246–251) the
relaxation requires only `When = Constraints = OK`: with Anchor `ABSENT`
(hence not `OK`) the Verification finding is still forced to
`PermissibleMissing`, so "all four conditions are required" fails on that
cited implementation. -/
theorem c7_counterexample :
    st_v02_cx Anchor ≠ OK ∧ st_v02_cx Verification = ABSENT ∧
    (apply_missingness_rules_v02 exps_v02 "T5_ConstraintCentric" st_v02_cx).filter
        (fun i => i.slot == Verification) =
      [⟨Verification, PERMISSIBLE,
        "Permissible: Test logic implied via When+Constraints."⟩] := by
  refine ⟨by decide, by decide, by decide⟩

/-- C7 (amended): in `mrs_parser.py` the relaxation behaves exactly as the
claim states — with Verification `ABSENT`, the finding is forced to
`PermissibleMissing` when Anchor, What, When and Constraints are all `OK`,
and when any of the four is not `OK` the relaxation does not fire, the
report being exactly the output of stages S and A (base matrix labels plus
the earlier overrides).  In the v02 variant the relaxation instead fires
whenever `When = Constraints = OK`, regardless of Anchor and What. -/
theorem c7_verification_relaxation :
    (∀ (exps : ExpMatrix) (ty : String) (st : SlotName → SlotState),
      st Verification = ABSENT →
      ((st Anchor = OK ∧ st What = OK ∧ st When = OK ∧ st Constraints = OK) →
        ∀ i ∈ apply_missingness_rules exps ty st, i.slot = Verification →
          i.label = PERMISSIBLE) ∧
      (¬(st Anchor = OK ∧ st What = OK ∧ st When = OK ∧ st Constraints = OK) →
        apply_missingness_rules exps ty st =
          (lookupD exps ty).elim [] (fun m => missing_stage_sa m st))) ∧
    (∀ (exps : ExpMatrix) (ty : String) (st : SlotName → SlotState),
      st Verification = ABSENT → st When = OK → st Constraints = OK →
      ∀ i ∈ apply_missingness_rules_v02 exps ty st, i.slot = Verification →
        i.label = PERMISSIBLE) := by
  constructor
  · intro exps ty st hV
    constructor
    · intro hfour i hi hislot
      cases hl : lookupD exps ty with
      | none =>
        rw [apply_missingness_eq_none st hl] at hi
        simp at hi
      | some m =>
        rw [apply_missingness_eq_some st hl] at hi
        unfold verification_relax at hi
        rw [if_pos ⟨hV, hfour⟩] at hi
        obtain ⟨j, _, hij⟩ := List.mem_map.mp hi
        by_cases hjs : j.slot = Verification
        · rw [if_pos hjs] at hij
          rw [← hij]
        · rw [if_neg hjs] at hij
          rw [← hij] at hislot
          exact absurd hislot hjs
    · intro hnfour
      cases hl : lookupD exps ty with
      | none =>
        rw [apply_missingness_eq_none st hl]
        rfl
      | some m =>
        rw [apply_missingness_eq_some st hl]
        show verification_relax st (missing_stage_sa m st) = missing_stage_sa m st
        unfold verification_relax
        rw [if_neg (fun hh => hnfour hh.2)]
  · intro exps ty st hV hW hC i hi hislot
    cases hl : lookupD exps ty with
    | none =>
      rw [apply_missingness_v02_eq_none st hl] at hi
      simp at hi
    | some m =>
      rw [apply_missingness_v02_eq_some st hl] at hi
      unfold verification_relax_v02 at hi
      rw [if_pos ⟨hV, hW, hC⟩] at hi
      obtain ⟨j, _, hij⟩ := List.mem_map.mp hi
      by_cases hjs : j.slot = Verification
      · rw [if_pos hjs] at hij
        rw [← hij]
      · rw [if_neg hjs] at hij
        rw [← hij] at hislot
        exact absurd hislot hjs

/-- C7 witness: at a concrete matrix and a vector with all four slots `OK`,
the Verification finding of mrs_parser.py is `PermissibleMissing`; at a
vector with Anchor not `OK` the relaxation does not fire and the report
equals the stage S+A output. -/
theorem c7_witness :
    (∀ i ∈ apply_missingness_rules exps_c5 "T5_ConstraintCentric"
        (fun s => if s = Verification then ABSENT else OK),
      i.slot = Verification → i.label = PERMISSIBLE) ∧
    apply_missingness_rules exps_c5 "T5_ConstraintCentric" st_c5 =
      (lookupD exps_c5 "T5_ConstraintCentric").elim []
        (fun m => missing_stage_sa m st_c5) := by
  constructor
  · exact (c7_verification_relaxation.1 exps_c5 "T5_ConstraintCentric"
      (fun s => if s = Verification then ABSENT else OK) (by decide)).1
      (by refine ⟨by decide, by decide, by decide, by decide⟩)
  · exact (c7_verification_relaxation.1 exps_c5 "T5_ConstraintCentric" st_c5
      (by decide)).2 (by decide)

/-- C8: classification is deterministic.  Both embedded pipelines are pure:
two runs on the same raw inputs — the same id/metadata, the same regex
facts for the normalized text, the same configuration — produce identical
results, slot for slot, candidate list for candidate list, archetype,
rationale and findings; and type determination is a pure function of the
slot-state vector (equal vectors give the same archetype and the same
rationale). -/
theorem c8_determinism :
    (∀ (config : List TypeEntry) (id1 id2 : String) (o1 o2 : MatchOracle),
      id1 = id2 → (∀ s, o1.lex s = o2.lex s) → (∀ s, o1.strong s = o2.strong s) →
      adv_parse config id1 o1 = adv_parse config id2 o2) ∧
    (∀ (rules : Rules) (m1 m2 : ItemMeta) (tf1 tf2 : TextFacts),
      m1 = m2 → (∀ s, tf1.candidates s = tf2.candidates s) →
      (∀ s, tf1.spans s = tf2.spans s) → (∀ s, tf1.strong s = tf2.strong s) →
      parse_py rules m1 tf1 = parse_py rules m2 tf2) ∧
    (∀ (config : List TypeEntry) (st1 st2 : SlotName → SlotState),
      (∀ s, st1 s = st2 s) →
      determine_mrs_type config st1 = determine_mrs_type config st2) := by
  refine ⟨?_, ?_, ?_⟩
  · intro config id1 id2 o1 o2 hid hlex hstrong
    obtain ⟨l1, s1⟩ := o1
    obtain ⟨l2, s2⟩ := o2
    have h1 : l1 = l2 := funext hlex
    have h2 : s1 = s2 := funext hstrong
    rw [hid, h1, h2]
  · intro rules m1 m2 tf1 tf2 hm hc hs hst
    obtain ⟨c1, sp1, st1⟩ := tf1
    obtain ⟨c2, sp2, st2⟩ := tf2
    have h1 : c1 = c2 := funext hc
    have h2 : sp1 = sp2 := funext hs
    have h3 : st1 = st2 := funext hst
    rw [hm, h1, h2, h3]
  · intro config st1 st2 hst
    rw [funext hst]

/-- C8 witness: a concrete run applied to itself. -/
theorem c8_witness :
    adv_parse default_config "REQ-001" oracle_what =
      adv_parse default_config "REQ-001" oracle_what :=
  c8_determinism.1 default_config "REQ-001" "REQ-001" oracle_what oracle_what rfl
    (fun _ => rfl) (fun _ => rfl)

/-- A configuration whose decision table references the slot name
`"Bogus"`, outside the closed slot set. -/
def bad_rules : Rules :=
  { mrs_only_types :=
      { type_order := ["T1_WhyCentric"]
        types := [("T1_WhyCentric",
          { all := some [⟨"Bogus", ["OK"]⟩], any := none })] }
    matrix := [] }

/-- C9 (counterexample): `MRSParser.__init__` accepts `bad_rules` without
any slot-name validation (it merely stores the two sub-dicts), and
classification then raises `KeyError: Bogus` inside `_determine_mrs_type`
— the unknown-slot error occurs at classification time, not at load
time. -/
theorem c9_counterexample :
    mrs_parser_init bad_rules =
      { type_defs := bad_rules.mrs_only_types, expectations := [] } ∧
    determine_mrs_type_py bad_rules.mrs_only_types
      (slots_dict (fun _ => { state := ABSENT })) = .error "KeyError: Bogus" := by
  refine ⟨rfl, rfl⟩

theorem lookupD_mem {α : Type} {l : List (String × α)} {k : String} {v : α}
    (h : lookupD l k = some v) : ∃ key, (key, v) ∈ l := by
  rw [lookupD] at h
  obtain ⟨p, hp, hpv⟩ := Option.map_eq_some'.mp h
  refine ⟨p.1, ?_⟩
  have hmem : p ∈ l := List.mem_of_find?_eq_some hp
  rw [← hpv]
  exact hmem

theorem slots_dict_isSome (f : SlotName → SlotData) (k : String)
    (hk : (slotOfKey k).isSome) : ∃ sd, slots_dict f k = some sd := by
  obtain ⟨s, hs⟩ := Option.isSome_iff_exists.mp hk
  exact ⟨f s, by simp [slots_dict, hs]⟩

theorem check_all_conds_ok (f : SlotName → SlotData) (conds : List Cond)
    (hconds : ∀ c ∈ conds, (slotOfKey c.slot).isSome) :
    ∃ b, check_all_conds (slots_dict f) conds = .ok b := by
  induction conds with
  | nil => exact ⟨true, rfl⟩
  | cons c rest ih =>
    obtain ⟨sd, hsd⟩ := slots_dict_isSome f c.slot (hconds c (List.mem_cons_self c rest))
    rw [check_all_conds, hsd]
    by_cases hmem : stateName sd.state ∈ c.state_in
    · obtain ⟨b, hb⟩ := ih (fun x hx => hconds x (List.mem_cons_of_mem c hx))
      refine ⟨b, ?_⟩
      show (if stateName sd.state ∈ c.state_in then check_all_conds (slots_dict f) rest
        else Except.ok false) = Except.ok b
      rw [if_pos hmem]
      exact hb
    · refine ⟨false, ?_⟩
      show (if stateName sd.state ∈ c.state_in then check_all_conds (slots_dict f) rest
        else Except.ok false) = Except.ok false
      rw [if_neg hmem]

theorem check_any_conds_ok (f : SlotName → SlotData) (conds : List Cond)
    (hconds : ∀ c ∈ conds, (slotOfKey c.slot).isSome) :
    ∃ b, check_any_conds (slots_dict f) conds = .ok b := by
  induction conds with
  | nil => exact ⟨false, rfl⟩
  | cons c rest ih =>
    obtain ⟨sd, hsd⟩ := slots_dict_isSome f c.slot (hconds c (List.mem_cons_self c rest))
    rw [check_any_conds, hsd]
    by_cases hmem : stateName sd.state ∈ c.state_in
    · refine ⟨true, ?_⟩
      show (if stateName sd.state ∈ c.state_in then Except.ok true
        else check_any_conds (slots_dict f) rest) = Except.ok true
      rw [if_pos hmem]
    · obtain ⟨b, hb⟩ := ih (fun x hx => hconds x (List.mem_cons_of_mem c hx))
      refine ⟨b, ?_⟩
      show (if stateName sd.state ∈ c.state_in then Except.ok true
        else check_any_conds (slots_dict f) rest) = Except.ok b
      rw [if_neg hmem]
      exact hb

theorem determine_loop_ok (types : List (String × Criteria)) (f : SlotName → SlotData)
    (hcrit : ∀ t crit, (t, crit) ∈ types →
      (∀ c ∈ crit.all.getD [], (slotOfKey c.slot).isSome) ∧
      (∀ c ∈ crit.any.getD [], (slotOfKey c.slot).isSome)) :
    ∀ order : List String, (∀ t ∈ order, (lookupD types t).isSome) →
      ∃ r, determine_loop types (slots_dict f) order = .ok r := by
  intro order
  induction order with
  | nil =>
    intro _
    exact ⟨"Unknown", rfl⟩
  | cons t rest ih =>
    intro horder
    obtain ⟨crit, hcritt⟩ := Option.isSome_iff_exists.mp
      (horder t (List.mem_cons_self t rest))
    obtain ⟨key, hkeymem⟩ := lookupD_mem hcritt
    have hc := hcrit key crit hkeymem
    obtain ⟨r, hr⟩ := ih (fun t' ht' => horder t' (List.mem_cons_of_mem t ht'))
    have hallok : ∃ b, eval_all_conds (slots_dict f) crit = Except.ok b := by
      rw [eval_all_conds]
      cases hca : crit.all with
      | none => exact ⟨true, rfl⟩
      | some cs =>
        refine check_all_conds_ok f cs ?_
        have hcc := hc.1
        rw [hca] at hcc
        simpa using hcc
    obtain ⟨b, hb⟩ := hallok
    have hgate : ∃ r2, eval_any_gate (slots_dict f) t
        (determine_loop types (slots_dict f) rest) crit = Except.ok r2 := by
      rw [eval_any_gate]
      cases hcany : crit.any with
      | none => exact ⟨t, rfl⟩
      | some cs =>
        have hanyok : ∃ ab, check_any_conds (slots_dict f) cs = .ok ab := by
          refine check_any_conds_ok f cs ?_
          have hcc := hc.2
          rw [hcany] at hcc
          simpa using hcc
        obtain ⟨ab, hab⟩ := hanyok
        show ∃ r2, (match check_any_conds (slots_dict f) cs with
          | Except.error e => Except.error e
          | Except.ok ab => if ab = true then Except.ok t
            else determine_loop types (slots_dict f) rest) = Except.ok r2
        rw [hab]
        cases ab with
        | false =>
          refine ⟨r, ?_⟩
          show (if false = true then Except.ok t
            else determine_loop types (slots_dict f) rest) = Except.ok r
          rw [if_neg (by simp)]
          exact hr
        | true =>
          refine ⟨t, ?_⟩
          show (if true = true then Except.ok t
            else determine_loop types (slots_dict f) rest) = Except.ok t
          rw [if_pos rfl]
    obtain ⟨r2, hr2⟩ := hgate
    cases b with
    | false =>
      refine ⟨r, ?_⟩
      rw [determine_loop, hcritt]
      show (match eval_all_conds (slots_dict f) crit with
        | Except.error e => Except.error e
        | Except.ok b =>
          if b then eval_any_gate (slots_dict f) t
            (determine_loop types (slots_dict f) rest) crit
          else determine_loop types (slots_dict f) rest) = Except.ok r
      rw [hb]
      show (if false = true then eval_any_gate (slots_dict f) t
          (determine_loop types (slots_dict f) rest) crit
        else determine_loop types (slots_dict f) rest) = Except.ok r
      rw [if_neg (by simp)]
      exact hr
    | true =>
      refine ⟨r2, ?_⟩
      rw [determine_loop, hcritt]
      show (match eval_all_conds (slots_dict f) crit with
        | Except.error e => Except.error e
        | Except.ok b =>
          if b then eval_any_gate (slots_dict f) t
            (determine_loop types (slots_dict f) rest) crit
          else determine_loop types (slots_dict f) rest) = Except.ok r2
      rw [hb]
      show (if true = true then eval_any_gate (slots_dict f) t
          (determine_loop types (slots_dict f) rest) crit
        else determine_loop types (slots_dict f) rest) = Except.ok r2
      rw [if_pos rfl]
      exact hr2

/-- C9 (amended): the engine performs no load-time validation —
`__init__` stores any configuration verbatim — and `mrs_parser.py` raises
`KeyError` at classification time for a decision table referencing an
unknown slot name (see the counterexample).  Conversely, when every type
name of `type_order` resolves and every referenced slot name belongs to
the closed 8-name set, classification never errors; and the explainable
variant's `determine_mrs_type` reads unknown slot names as `ABSENT`
instead of raising. -/
theorem c9_slot_name_handling :
    (∀ rules : Rules, mrs_parser_init rules =
      { type_defs := rules.mrs_only_types, expectations := rules.matrix }) ∧
    (∀ (td : TypeDefs) (f : SlotName → SlotData),
      (∀ t ∈ td.type_order, (lookupD td.types t).isSome) →
      (∀ t crit, (t, crit) ∈ td.types →
        (∀ c ∈ crit.all.getD [], (slotOfKey c.slot).isSome) ∧
        (∀ c ∈ crit.any.getD [], (slotOfKey c.slot).isSome)) →
      ∃ r, determine_mrs_type_py td (slots_dict f) = .ok r) ∧
    (∀ (st : SlotName → SlotState) (k : String), slotOfKey k = none →
      state_of st k = ABSENT) := by
  refine ⟨fun _ => rfl, ?_, ?_⟩
  · intro td f horder hcrit
    exact determine_loop_ok td.types f hcrit td.type_order horder
  · intro st k hk
    rw [state_of, hk]
    rfl

/-- C10: normalization is idempotent, in both variants.  Python's only
falsy `str` is `""`, covered by the `if text = ""` guard; a normalized
text — lower-cased, `msec`/`milliseconds` unified to `ms` and
`sec`/`seconds` to `s`, newline-free, trimmed — passes a second
application unchanged. -/
theorem c10_normalize_idempotent (s : String) :
    normalize (normalize s) = normalize s ∧
    normalize_exp (normalize_exp s) = normalize_exp s := by
  constructor
  · by_cases h2 : normalize s = ""
    · rw [h2]
      rfl
    · conv_lhs => rw [normalize]
      rw [if_neg h2]
      by_cases h : s = ""
      · exact absurd (by rw [h]; rfl) h2
      · have hs : normalize s = ⟨normalizeList s.data⟩ := by rw [normalize, if_neg h]
        rw [hs]
        show (⟨normalizeList (normalizeList s.data)⟩ : String) = _
        rw [normalizeList_idem]
  · by_cases h2 : normalize_exp s = ""
    · rw [h2]
      rfl
    · conv_lhs => rw [normalize_exp]
      rw [if_neg h2]
      by_cases h : s = ""
      · exact absurd (by rw [h]; rfl) h2
      · have hs : normalize_exp s = ⟨normalizeListExp s.data⟩ := by
          rw [normalize_exp, if_neg h]
        rw [hs]
        show (⟨normalizeListExp (normalizeListExp s.data)⟩ : String) = _
        rw [normalizeListExp_idem]

/-- C9 witness: a well-formed one-entry decision table classifies without
error. -/
theorem c9_witness :
    ∃ r, determine_mrs_type_py
      { type_order := ["T1_WhyCentric"]
        types := [("T1_WhyCentric", { all := some [⟨"Why", ["OK"]⟩], any := none })] }
      (slots_dict (fun _ => { state := ABSENT })) = .ok r :=
  c9_slot_name_handling.2.1
    { type_order := ["T1_WhyCentric"]
      types := [("T1_WhyCentric", { all := some [⟨"Why", ["OK"]⟩], any := none })] }
    (fun _ => { state := ABSENT }) (by decide)
    (by
      intro t crit hmem
      rw [List.mem_singleton] at hmem
      injection hmem with h1 h2
      subst h2
      exact ⟨by decide, by decide⟩)

end FuSaTool
